import Mathlib

/-!
Verification of the chisel task manager's core subsystems against its
natural-language specification.

The Python source (src/chisel/{models,storage,decompose,hooks,cli}.py) is
shallowly embedded: the SQLite store becomes an explicit `Db` state (lists of
task, dependency and hook records), SQL queries become list filters and sorts,
Python floats become exact rationals, and the external process-execution
facility used by hooks becomes an explicit oracle (`Exec`) mapping a command
invocation to its outcome, per the design note that hooks be modelled as a
capability interface.

Timestamps: `created_at`/`updated_at` are only ever compared against other
values of the same isoformat rendering (`ORDER BY created_at`), where the
byte-wise TEXT order agrees with chronological order, so they are embedded
as naturals.  `due_at`/`defer_until`, however, are stored as the TEXT that
`datetime.isoformat()` produces and `get_ready_tasks` compares that TEXT
byte-wise against SQLite's differently formatted `datetime('now')`; these
two columns are therefore embedded as the stored strings, with the
rendering functions (`isoformat`, `sqliteNow`) and SQLite's BINARY
collation (`textLe`) made explicit.
-/

namespace Chisel

/-- A Python `datetime` value as produced by `datetime.now()` (naive local
wall-clock reading; `microsecond` in 0..999999). -/
structure PyDateTime where
  year : Nat
  month : Nat
  day : Nat
  hour : Nat
  minute : Nat
  second : Nat
  microsecond : Nat
deriving DecidableEq

/-- Decimal rendering of a natural, left-padded with zeros to a width. -/
def padNum (w n : Nat) : String :=
  let s := toString n
  if s.length < w then String.mk (List.replicate (w - s.length) '0') ++ s else s

/-- Python `datetime.isoformat()`: `YYYY-MM-DDTHH:MM:SS[.ffffff]`, the
fractional part present exactly when `microsecond` is nonzero.  This is the
TEXT `Storage` writes into the `due_at` and `defer_until` columns. -/
def isoformat (t : PyDateTime) : String :=
  padNum 4 t.year ++ "-" ++ padNum 2 t.month ++ "-" ++ padNum 2 t.day ++ "T" ++
  padNum 2 t.hour ++ ":" ++ padNum 2 t.minute ++ ":" ++ padNum 2 t.second ++
  (if t.microsecond = 0 then "" else "." ++ padNum 6 t.microsecond)

/-- SQLite's `datetime('now')`: the current UTC instant rendered as
`YYYY-MM-DD HH:MM:SS` — space-separated, no fractional part. -/
def sqliteNow (t : PyDateTime) : String :=
  padNum 4 t.year ++ "-" ++ padNum 2 t.month ++ "-" ++ padNum 2 t.day ++ " " ++
  padNum 2 t.hour ++ ":" ++ padNum 2 t.minute ++ ":" ++ padNum 2 t.second

/-- SQLite's BINARY collation on ASCII TEXT: byte-wise lexicographic `<=`
(on ASCII the byte order is the codepoint order). -/
def textLe : List Char → List Char → Bool
  | [], _ => true
  | _ :: _, [] => false
  | a :: as, b :: bs =>
    if a.toNat < b.toNat then true
    else if b.toNat < a.toNat then false
    else textLe as bs

/-- Chronological order on datetime values read on one clock: a strictly
monotone numeric key (months < 13, days < 32, microseconds < 10^6). -/
def dtKey (t : PyDateTime) : Nat :=
  (((((t.year * 13 + t.month) * 32 + t.day) * 24 + t.hour) * 60 + t.minute)
      * 60 + t.second) * 1000000 + t.microsecond

/-- Task record, mirroring `models.Task` / the `tasks` table columns.
`due_at` and `defer_until` hold the stored column TEXT (an `isoformat`
rendering when set), since `get_ready_tasks` compares that TEXT as such. -/
structure Task where
  id : String
  title : String
  description : String
  task_type : String
  priority : Int
  story_points : Option Int
  estimated_minutes : Option Int
  status : String
  parent_id : Option String
  acceptance_criteria : List String
  quality_score : Option ℚ
  assignee : Option String
  labels : List String
  created_at : Nat
  updated_at : Nat
  due_at : Option String
  defer_until : Option String
deriving DecidableEq

/-- Dependency edge record, mirroring `models.Dependency` / `dependencies`. -/
structure Dep where
  id : Nat
  task_id : String
  depends_on_id : String
  dep_type : String
  created_at : Nat
deriving DecidableEq

/-- Hook record, mirroring `models.Hook` / the `hooks` table. -/
structure Hook where
  id : Nat
  event : String
  command : String
  enabled : Bool
deriving DecidableEq

/-- The persistent store state: the three tables of `storage.SCHEMA`. -/
structure Db where
  tasks : List Task
  deps : List Dep
  hooks : List Hook
deriving DecidableEq

/-- `Storage.get_task`: point query by primary key. -/
def getTask (db : Db) (tid : String) : Option Task :=
  db.tasks.find? (fun t => t.id == tid)

/-- The store's default ordering: `ORDER BY priority ASC, created_at ASC`. -/
def taskLE (a b : Task) : Prop :=
  a.priority < b.priority ∨ (a.priority = b.priority ∧ a.created_at ≤ b.created_at)

instance : DecidableRel taskLE := fun a b => by
  unfold taskLE; exact inferInstance

instance : IsTotal Task taskLE := by
  constructor
  intro a b
  unfold taskLE
  rcases lt_trichotomy a.priority b.priority with h | h | h
  · exact Or.inl (Or.inl h)
  · rcases Nat.le_total a.created_at b.created_at with h2 | h2
    · exact Or.inl (Or.inr ⟨h, h2⟩)
    · exact Or.inr (Or.inr ⟨h.symm, h2⟩)
  · exact Or.inr (Or.inl h)

instance : IsTrans Task taskLE := by
  constructor
  intro a b c hab hbc
  unfold taskLE at *
  rcases hab with h1 | ⟨h1, h1'⟩ <;> rcases hbc with h2 | ⟨h2, h2'⟩
  · exact Or.inl (h1.trans h2)
  · exact Or.inl (h2 ▸ h1)
  · exact Or.inl (h1 ▸ h2)
  · exact Or.inr ⟨h1.trans h2, h1'.trans h2'⟩

/-- SQLite `LIKE` ASCII case folding: `A`-`Z` compare equal to `a`-`z`. -/
def foldChar (c : Char) : Char :=
  if 'A' ≤ c ∧ c ≤ 'Z' then Char.ofNat (c.toNat + 32) else c

/-- Does `f` hold of some suffix of the text?  Helper giving the semantics
of a `%` wildcard. -/
def suffixAny (f : List Char → Bool) : List Char → Bool
  | [] => f []
  | c :: cs => f (c :: cs) || suffixAny f cs

/-- SQLite `LIKE` pattern matching: `%` matches any sequence, `_` any single
character, other characters match up to ASCII case folding. -/
def likeMatch : List Char → List Char → Bool
  | [], ts => ts.isEmpty
  | p :: ps, ts =>
    if p = '%' then suffixAny (fun s => likeMatch ps s) ts
    else
      match ts with
      | [] => false
      | t :: ts' =>
        if p = '_' then likeMatch ps ts'
        else (foldChar p == foldChar t) && likeMatch ps ts'

/-- One character of `json.dumps` string escaping (`ensure_ascii` default). -/
def escChar (c : Char) : List Char :=
  if c = '"' then ['\\', '"']
  else if c = '\\' then ['\\', '\\']
  else if c = '\n' then ['\\', 'n']
  else if c = '\r' then ['\\', 'r']
  else if c = '\t' then ['\\', 't']
  else if c = '\x08' then ['\\', 'b']
  else if c = '\x0c' then ['\\', 'f']
  else if c.toNat < 0x20 ∨ 0x7e < c.toNat then
    '\\' :: 'u' ::
      [Nat.digitChar (c.toNat / 4096 % 16), Nat.digitChar (c.toNat / 256 % 16),
       Nat.digitChar (c.toNat / 16 % 16), Nat.digitChar (c.toNat % 16)]
  else [c]

/-- `json.dumps` escaping of a whole string body. -/
def escStr : List Char → List Char
  | [] => []
  | c :: cs => escChar c ++ escStr cs

/-- A JSON string literal: quote, escaped body, quote. -/
def quoteStr (l : List Char) : List Char := '"' :: escStr l ++ ['"']

/-- Body of `json.dumps` of a list of strings (default `", "` separator). -/
def serializeInner : List (List Char) → List Char
  | [] => []
  | [l] => quoteStr l
  | l :: l2 :: ls => quoteStr l ++ ',' :: ' ' :: serializeInner (l2 :: ls)

/-- `json.dumps` of a list of strings, the form the `labels` column holds. -/
def serializeLabels (ls : List (List Char)) : List Char :=
  '[' :: serializeInner ls ++ [']']

/-- The `labels LIKE '%"<label>"%'` condition of `Storage.list_tasks`. -/
def labelLike (l : List Char) (labels : List (List Char)) : Bool :=
  likeMatch ('%' :: '"' :: (l ++ '"' :: '%' :: [])) (serializeLabels labels)

/-- Optional filters accepted by `Storage.list_tasks`; an empty label list
means the label condition is absent (Python truthiness of `labels`). -/
structure ListFilters where
  status : Option String := none
  priority : Option Int := none
  task_type : Option String := none
  parent_id : Option String := none
  assignee : Option String := none
  labels : List String := []
  limit : Option Nat := none
deriving DecidableEq

/-- The `WHERE` clause built by `Storage.list_tasks`. -/
def rowMatches (f : ListFilters) (t : Task) : Bool :=
  (match f.status with | some s => t.status == s | none => true) &&
  (match f.priority with | some p => t.priority == p | none => true) &&
  (match f.task_type with | some ty => t.task_type == ty | none => true) &&
  (match f.parent_id with | some p => t.parent_id == some p | none => true) &&
  (match f.assignee with | some a => t.assignee == some a | none => true) &&
  (if f.labels.isEmpty then true
   else f.labels.any (fun l => labelLike l.data (t.labels.map String.data)))

/-- `Storage.list_tasks`: filter, order by priority then creation time,
optionally cap the result count. -/
def listTasks (db : Db) (f : ListFilters) : List Task :=
  let rows := List.insertionSort taskLE (db.tasks.filter (rowMatches f))
  match f.limit with
  | some n => rows.take n
  | none => rows

/-- `Storage.get_children`: `list_tasks` filtered to one parent. -/
def getChildren (db : Db) (pid : String) : List Task :=
  listTasks db { parent_id := some pid }

/-- The `WHERE` clause of `Storage.get_ready_tasks`: status open,
`t.defer_until IS NULL OR t.defer_until <= datetime('now')` — the stored
isoformat TEXT compared byte-wise against the `datetime('now')` rendering of
the current UTC instant `now` — and no `blocks` edge joining to an
unfinished task. -/
def isReadyRow (db : Db) (now : PyDateTime) (t : Task) : Bool :=
  t.status == "open" &&
  (match t.defer_until with
   | none => true
   | some d => textLe d.data (sqliteNow now).data) &&
  !(db.deps.any (fun dp =>
      dp.task_id == t.id && dp.dep_type == "blocks" &&
      db.tasks.any (fun b =>
        b.id == dp.depends_on_id &&
        !(b.status == "done" || b.status == "cancelled"))))

/-- The ready rows in the store's default order, before the `LIMIT`. -/
def readyRows (db : Db) (now : PyDateTime) : List Task :=
  List.insertionSort taskLE (db.tasks.filter (isReadyRow db now))

/-- `Storage.get_ready_tasks`: the ready rows truncated to `limit`. -/
def getReadyTasks (db : Db) (now : PyDateTime) (limit : Nat) : List Task :=
  (readyRows db now).take limit

/-- The instant a task was deferred until: 08:00 on 2026-10-12, as read and
stored by `Storage` (`defer_until.isoformat()`). -/
def deferInstant : PyDateTime := ⟨2026, 10, 12, 8, 0, 0, 0⟩

/-- The instant the ready query runs: 13:45 UTC the same day — hours after
the defer instant, the local clock here agreeing with UTC. -/
def queryInstant : PyDateTime := ⟨2026, 10, 12, 13, 45, 0, 0⟩

/-- Midnight UTC of the following day. -/
def nextMidnight : PyDateTime := ⟨2026, 10, 13, 0, 0, 0, 0⟩

/-- An open task with no dependency edges, deferred until `deferInstant`. -/
def tDefer : Task :=
  { id := "t-defer", title := "deferred task", description := "",
    task_type := "task", priority := 2, story_points := none,
    estimated_minutes := none, status := "open", parent_id := none,
    acceptance_criteria := [], quality_score := none, assignee := none,
    labels := [], created_at := 0, updated_at := 0, due_at := none,
    defer_until := some (isoformat deferInstant) }

/-- A store holding only `tDefer`, with no dependency edges at all. -/
def dbDefer : Db := { tasks := [tDefer], deps := [], hooks := [] }

/-- C1: refuted — the readiness rule claims a task whose `defer_until` has
already elapsed at query time is returned by `ready`, but the query compares
the stored isoformat TEXT (`T`-separated, written from the local clock)
byte-wise against SQLite's `datetime('now')` (space-separated UTC); on equal
dates the separator `T` (0x54) exceeds the space (0x20), so a defer that
elapsed earlier the same day still compares strictly greater than now.  The
open, dependency-free task deferred until 08:00, queried at 13:45 the same
day (clocks agreeing), fails the row test and is absent from the result; it
only becomes ready from the next UTC day on. -/
theorem ready_defer_text_bug :
    dtKey deferInstant ≤ dtKey queryInstant ∧
    tDefer.status = "open" ∧ dbDefer.deps = [] ∧
    textLe (isoformat deferInstant).data (sqliteNow queryInstant).data
      = false ∧
    isReadyRow dbDefer queryInstant tDefer = false ∧
    tDefer ∉ getReadyTasks dbDefer queryInstant 10 ∧
    getReadyTasks dbDefer queryInstant 10 = [] ∧
    getReadyTasks dbDefer nextMidnight 10 = [tDefer] := by
  refine ⟨by decide, rfl, rfl, by decide, by decide, by decide, by decide,
    by decide⟩

/-- The partial-field patch accepted by `Storage.update_task`; `none` is the
"field not supplied" marker (the Python `None` default). -/
structure TaskPatch where
  title : Option String := none
  description : Option String := none
  task_type : Option String := none
  priority : Option Int := none
  story_points : Option Int := none
  estimated_minutes : Option Int := none
  status : Option String := none
  parent_id : Option String := none
  acceptance_criteria : Option (List String) := none
  quality_score : Option ℚ := none
  assignee : Option String := none
  labels : Option (List String) := none
  due_at : Option PyDateTime := none
  defer_until : Option PyDateTime := none
deriving DecidableEq

/-- Is no field supplied?  (`if not updates:` in `Storage.update_task`.) -/
def TaskPatch.isEmpty (p : TaskPatch) : Bool :=
  p.title.isNone && p.description.isNone && p.task_type.isNone &&
  p.priority.isNone && p.story_points.isNone && p.estimated_minutes.isNone &&
  p.status.isNone && p.parent_id.isNone && p.acceptance_criteria.isNone &&
  p.quality_score.isNone && p.assignee.isNone && p.labels.isNone &&
  p.due_at.isNone && p.defer_until.isNone

/-- Write the supplied fields of a patch onto one row, refreshing
`updated_at`. -/
def applyPatch (t : Task) (p : TaskPatch) (now : Nat) : Task :=
  { t with
    title := p.title.getD t.title
    description := p.description.getD t.description
    task_type := p.task_type.getD t.task_type
    priority := p.priority.getD t.priority
    story_points := p.story_points.or t.story_points
    estimated_minutes := p.estimated_minutes.or t.estimated_minutes
    status := p.status.getD t.status
    parent_id := p.parent_id.or t.parent_id
    acceptance_criteria := p.acceptance_criteria.getD t.acceptance_criteria
    quality_score := p.quality_score.or t.quality_score
    assignee := p.assignee.or t.assignee
    labels := p.labels.getD t.labels
    due_at := (p.due_at.map isoformat).or t.due_at
    defer_until := (p.defer_until.map isoformat).or t.defer_until
    updated_at := now }

/-- `Storage.update_task`'s effect on the store: with no supplied field it
returns early touching nothing; otherwise it writes the supplied fields and
a fresh `updated_at` to the row with the given id. -/
def updateTaskDb (db : Db) (tid : String) (p : TaskPatch) (now : Nat) : Db :=
  if p.isEmpty then db
  else { db with tasks :=
          db.tasks.map (fun t => if t.id == tid then applyPatch t p now else t) }

theorem applyPatch_id (t : Task) (p : TaskPatch) (now : Nat) :
    (applyPatch t p now).id = t.id := rfl

theorem getTask_id {db : Db} {x : String} {t : Task}
    (h : getTask db x = some t) : t.id = x := by
  have := List.find?_some h
  simpa using this

theorem getTask_mem {db : Db} {x : String} {t : Task}
    (h : getTask db x = some t) : t ∈ db.tasks :=
  List.mem_of_find?_eq_some h

theorem getTask_updateTaskDb (db : Db) (tid : String) (p : TaskPatch)
    (now : Nat) (x : String) :
    getTask (updateTaskDb db tid p now) x =
      if p.isEmpty then getTask db x
      else (getTask db x).map
        (fun t => if t.id == tid then applyPatch t p now else t) := by
  unfold updateTaskDb getTask
  split
  · rfl
  · show List.find? _ (List.map _ _) = _
    rw [List.find?_map]
    have hfun : ((fun t => t.id == x) ∘
        fun t => if (t.id == tid) = true then applyPatch t p now else t) =
        (fun t : Task => t.id == x) := by
      funext t
      by_cases h : (t.id == tid) = true <;>
        simp [Function.comp, h, applyPatch_id]
    rw [hfun]

theorem getTask_update_ne {db : Db} {tid : String} {p : TaskPatch}
    {now : Nat} {x : String} (h : x ≠ tid) :
    getTask (updateTaskDb db tid p now) x = getTask db x := by
  rw [getTask_updateTaskDb]
  split
  · rfl
  · cases hg : getTask db x with
    | none => rfl
    | some t =>
      have hid : t.id = x := getTask_id hg
      simp [hid, h]

theorem getTask_update_self {db : Db} {tid : String} {p : TaskPatch}
    {now : Nat} (h : p.isEmpty = false) :
    getTask (updateTaskDb db tid p now) tid =
      (getTask db tid).map (fun t => applyPatch t p now) := by
  rw [getTask_updateTaskDb, if_neg (by simp [h])]
  cases hg : getTask db tid with
  | none => rfl
  | some t =>
    have hid : t.id = tid := getTask_id hg
    simp [hid]

/-- A concrete task used to exercise the update path. -/
def tUpd : Task :=
  { id := "a", title := "t", description := "", task_type := "task",
    priority := 2, story_points := some 5, estimated_minutes := none,
    status := "open", parent_id := none, acceptance_criteria := [],
    quality_score := none, assignee := none, labels := [],
    created_at := 0, updated_at := 0, due_at := none, defer_until := none }

/-- A one-task store used to exercise the update path. -/
def dbUpd : Db := { tasks := [tUpd], deps := [], hooks := [] }

/-- C9 (counterexample): an update supplying no fields does not refresh the
last-updated timestamp — `update_task` returns before the `updated_at`
write when the supplied-field list is empty, contradicting the claim that
every successful update refreshes it. -/
theorem update_empty_skips_refresh :
    updateTaskDb dbUpd "a" {} 42 = dbUpd ∧
    ∃ t2, getTask (updateTaskDb dbUpd "a" {} 42) "a" = some t2 ∧
      ¬ t2.updated_at = 42 := by
  refine ⟨rfl, tUpd, rfl, by decide⟩

/-- C9 (amended): fields not supplied to `update_task` are left untouched
and every update supplying at least one field refreshes `updated_at` (even
when the supplied values equal the current ones); an update supplying no
fields leaves the store entirely unchanged, without refreshing
`updated_at`.  Rows with other ids are never touched. -/
theorem update_patch_semantics (db : Db) (tid : String) (p : TaskPatch)
    (now : Nat) (t : Task) (ht : getTask db tid = some t) :
    (p.isEmpty = true → updateTaskDb db tid p now = db) ∧
    (p.isEmpty = false →
      ∃ t2, getTask (updateTaskDb db tid p now) tid = some t2 ∧
        t2.updated_at = now ∧ t2.id = t.id ∧ t2.created_at = t.created_at ∧
        (p.title = none → t2.title = t.title) ∧
        (p.description = none → t2.description = t.description) ∧
        (p.task_type = none → t2.task_type = t.task_type) ∧
        (p.priority = none → t2.priority = t.priority) ∧
        (p.story_points = none → t2.story_points = t.story_points) ∧
        (p.estimated_minutes = none →
          t2.estimated_minutes = t.estimated_minutes) ∧
        (p.status = none → t2.status = t.status) ∧
        (p.parent_id = none → t2.parent_id = t.parent_id) ∧
        (p.acceptance_criteria = none →
          t2.acceptance_criteria = t.acceptance_criteria) ∧
        (p.quality_score = none → t2.quality_score = t.quality_score) ∧
        (p.assignee = none → t2.assignee = t.assignee) ∧
        (p.labels = none → t2.labels = t.labels) ∧
        (p.due_at = none → t2.due_at = t.due_at) ∧
        (p.defer_until = none → t2.defer_until = t.defer_until)) ∧
    (∀ x, x ≠ tid → getTask (updateTaskDb db tid p now) x = getTask db x) := by
  refine ⟨?_, ?_, ?_⟩
  · intro h
    unfold updateTaskDb
    rw [if_pos h]
  · intro h
    refine ⟨applyPatch t p now, ?_, ?_⟩
    · rw [getTask_update_self h, ht]
      rfl
    · refine ⟨rfl, rfl, rfl, ?_, ?_, ?_, ?_, ?_, ?_, ?_, ?_, ?_, ?_, ?_,
        ?_, ?_, ?_⟩ <;>
        (intro hf; simp [applyPatch, hf])
  · intro x hx
    exact getTask_update_ne hx

/-- C9 (witness). -/
theorem update_patch_semantics_witness :
    ∃ t2, getTask (updateTaskDb dbUpd "a" { status := some "done" } 7) "a" =
        some t2 ∧ t2.updated_at = 7 ∧ t2.title = tUpd.title := by
  obtain ⟨-, h2, -⟩ :=
    update_patch_semantics dbUpd "a" { status := some "done" } 7 tUpd rfl
  obtain ⟨t2, hg, hu, -, -, htitle, -⟩ := h2 (by decide)
  exact ⟨t2, hg, hu, htitle rfl⟩

/-- A sequence of update calls, each with its target id, patch and clock
reading, applied in order. -/
def applyUpdates (db : Db) (us : List (String × TaskPatch × Nat)) : Db :=
  us.foldl (fun d u => updateTaskDb d u.1 u.2.1 u.2.2) db

theorem update_isSome_step {db : Db} {tid : String} {p : TaskPatch}
    {now : Nat} {x : String} {t t' : Task}
    (h1 : getTask db x = some t)
    (h2 : getTask (updateTaskDb db tid p now) x = some t') :
    (t.story_points.isSome → t'.story_points.isSome) ∧
    (t.estimated_minutes.isSome → t'.estimated_minutes.isSome) ∧
    (t.parent_id.isSome → t'.parent_id.isSome) ∧
    (t.quality_score.isSome → t'.quality_score.isSome) ∧
    (t.assignee.isSome → t'.assignee.isSome) ∧
    (t.due_at.isSome → t'.due_at.isSome) ∧
    (t.defer_until.isSome → t'.defer_until.isSome) := by
  rw [getTask_updateTaskDb] at h2
  split at h2
  · rw [h1] at h2
    cases h2
    exact ⟨id, id, id, id, id, id, id⟩
  · rw [h1] at h2
    simp only [Option.map_some'] at h2
    split at h2 <;> cases h2
    · refine ⟨?_, ?_, ?_, ?_, ?_, ?_, ?_⟩ <;>
        (intro hs; simp [applyPatch, Option.isSome_or, hs])
    · exact ⟨id, id, id, id, id, id, id⟩

/-- C10: an optional field (story points, estimated minutes, parent
reference, quality score, assignee, due timestamp, defer-until timestamp)
that is set can never be returned to the unset state by any sequence of
`update_task` calls, because `None` doubles as the leave-unchanged marker:
only non-`None` values are ever written. -/
theorem update_never_unsets (db : Db) (us : List (String × TaskPatch × Nat))
    (tid : String) (t t' : Task) (h1 : getTask db tid = some t)
    (h2 : getTask (applyUpdates db us) tid = some t') :
    (t.story_points.isSome → t'.story_points.isSome) ∧
    (t.estimated_minutes.isSome → t'.estimated_minutes.isSome) ∧
    (t.parent_id.isSome → t'.parent_id.isSome) ∧
    (t.quality_score.isSome → t'.quality_score.isSome) ∧
    (t.assignee.isSome → t'.assignee.isSome) ∧
    (t.due_at.isSome → t'.due_at.isSome) ∧
    (t.defer_until.isSome → t'.defer_until.isSome) := by
  induction us generalizing db t with
  | nil =>
    rw [applyUpdates, List.foldl_nil, h1] at h2
    cases h2
    exact ⟨id, id, id, id, id, id, id⟩
  | cons u rest ih =>
    have hstep : applyUpdates db (u :: rest) =
        applyUpdates (updateTaskDb db u.1 u.2.1 u.2.2) rest := rfl
    rw [hstep] at h2
    have hmid : ∃ tm, getTask (updateTaskDb db u.1 u.2.1 u.2.2) tid = some tm := by
      rw [getTask_updateTaskDb]
      split
      · exact ⟨t, h1⟩
      · rw [h1]
        exact ⟨_, rfl⟩
    obtain ⟨tm, hm⟩ := hmid
    obtain ⟨a1, a2, a3, a4, a5, a6, a7⟩ := update_isSome_step h1 hm
    obtain ⟨b1, b2, b3, b4, b5, b6, b7⟩ := ih _ tm hm h2
    exact ⟨fun h => b1 (a1 h), fun h => b2 (a2 h), fun h => b3 (a3 h),
      fun h => b4 (a4 h), fun h => b5 (a5 h), fun h => b6 (a6 h),
      fun h => b7 (a7 h)⟩

/-- C10 (witness). -/
theorem update_never_unsets_witness :
    ∃ t', getTask (applyUpdates dbUpd
        [("a", { story_points := some 3 }, 1), ("a", {}, 2)]) "a" =
      some t' ∧ t'.story_points.isSome = true := by
  have hfinal : ∃ t', getTask (applyUpdates dbUpd
      [("a", { story_points := some 3 }, 1), ("a", {}, 2)]) "a" = some t' := by
    exact ⟨_, rfl⟩
  obtain ⟨t', h⟩ := hfinal
  obtain ⟨b1, -⟩ := update_never_unsets dbUpd _ "a" tUpd t' rfl h
  exact ⟨t', h, b1 (by decide)⟩

/-- Outcome of executing one external command: normal completion with an
exit code and captured output, expiry of the timeout, or a spawn-level
failure (the `except Exception` arm of `run_hook`). -/
inductive ExecOutcome where
  | completed (returncode : Int) (stdout stderr : String)
  | timedOut
  | spawnError (message : String)
deriving DecidableEq

/-- The external process-execution capability: command, task id exposed to
the environment, working directory. -/
def Exec : Type := String → Option String → Option String → ExecOutcome

/-- The per-hook result dictionary built by `run_hook` / `run_hooks`. -/
structure HookResult where
  command : String
  success : Bool
  return_code : Int
  stdout : String
  stderr : String
  hook_id : Nat := 0
  event : String := ""
deriving DecidableEq

/-- `Storage.get_hooks` with an event: enabled hooks scoped to the event. -/
def getHooks (db : Db) (event : String) : List Hook :=
  db.hooks.filter (fun h => h.event == event && h.enabled)

/-- `hooks.run_hook`: translate one command execution outcome into a result
row; a timeout or spawn failure becomes a failed result with exit code −1
rather than an exception. -/
def runHook (exec : Exec) (command : String) (task_id working_dir : Option String)
    (timeout : Nat) : HookResult :=
  match exec command task_id working_dir with
  | .completed rc out err =>
    { command := command, success := rc == 0, return_code := rc,
      stdout := out, stderr := err }
  | .timedOut =>
    { command := command, success := false, return_code := -1, stdout := "",
      stderr := "Command timed out after " ++ toString timeout ++ " seconds" }
  | .spawnError m =>
    { command := command, success := false, return_code := -1, stdout := "",
      stderr := m }

/-- `hooks.run_hooks`: run every enabled hook for the event (the inner
`if not hook.enabled: continue` re-checks what `get_hooks` already
filtered), tagging each result with its hook id and event. -/
def runHooks (exec : Exec) (db : Db) (event : String)
    (task_id working_dir : Option String) : List HookResult :=
  ((getHooks db event).filter (fun h => h.enabled)).map
    (fun h => { runHook exec h.command task_id working_dir 300 with
                  hook_id := h.id, event := h.event })

theorem runHooks_eq_map (exec : Exec) (db : Db) (event : String)
    (task_id working_dir : Option String) :
    runHooks exec db event task_id working_dir = (getHooks db event).map
      (fun h => { runHook exec h.command task_id working_dir 300 with
                    hook_id := h.id, event := h.event }) := by
  unfold runHooks
  rw [List.filter_eq_self.mpr]
  intro h hm
  rw [getHooks, List.mem_filter] at hm
  exact ((Bool.and_eq_true _ _).mp hm.2).2

theorem runHook_completed (exec : Exec) (c : String) (tid wd : Option String)
    (timeout : Nat) (rc : Int) (out err : String)
    (h : exec c tid wd = .completed rc out err) :
    runHook exec c tid wd timeout =
      { command := c, success := rc == 0, return_code := rc,
        stdout := out, stderr := err } := by
  unfold runHook
  rw [h]

theorem runHook_timedOut (exec : Exec) (c : String) (tid wd : Option String)
    (timeout : Nat) (h : exec c tid wd = .timedOut) :
    runHook exec c tid wd timeout =
      { command := c, success := false, return_code := -1, stdout := "",
        stderr := "Command timed out after " ++ toString timeout
          ++ " seconds" } := by
  unfold runHook
  rw [h]

theorem runHook_spawnError (exec : Exec) (c : String) (tid wd : Option String)
    (timeout : Nat) (m : String) (h : exec c tid wd = .spawnError m) :
    runHook exec c tid wd timeout =
      { command := c, success := false, return_code := -1, stdout := "",
        stderr := m } := by
  unfold runHook
  rw [h]

/-- The correspondence between one enabled hook and its result row:
exit code 0 is the sole success criterion; a timeout yields a failed
result with code −1 and the synthetic timed-out message; a spawn-level
failure is captured as a failed result instead of being raised. -/
def HookResultSpec (exec : Exec) (tid wd : Option String)
    (h : Hook) (r : HookResult) : Prop :=
  r.command = h.command ∧ r.hook_id = h.id ∧ r.event = h.event ∧
  (r.success = true ↔
    ∃ out err, exec h.command tid wd = .completed 0 out err) ∧
  (∀ rc out err, exec h.command tid wd = .completed rc out err →
    r.return_code = rc ∧ r.stdout = out ∧ r.stderr = err) ∧
  (exec h.command tid wd = .timedOut →
    r.success = false ∧ r.return_code = -1 ∧
    r.stderr = "Command timed out after 300 seconds") ∧
  (∀ m, exec h.command tid wd = .spawnError m →
    r.success = false ∧ r.return_code = -1 ∧ r.stderr = m)

/-- C6: the pipeline always completes and returns exactly one result per
enabled hook for the event, in the configured order with no short-circuit
on failure, with each result related to its hook by `HookResultSpec`. -/
theorem hook_pipeline_results (exec : Exec) (db : Db) (event : String)
    (tid wd : Option String) :
    (runHooks exec db event tid wd).length = (getHooks db event).length ∧
    List.Forall₂ (HookResultSpec exec tid wd) (getHooks db event)
      (runHooks exec db event tid wd) := by
  rw [runHooks_eq_map]
  refine ⟨List.length_map _ _, ?_⟩
  rw [List.forall₂_map_right_iff, List.forall₂_same]
  intro h hm
  unfold HookResultSpec
  cases hexec : exec h.command tid wd with
  | completed rc out err =>
    rw [runHook_completed exec h.command tid wd 300 rc out err hexec]
    refine ⟨rfl, rfl, rfl, ?_, ?_, ?_, ?_⟩
    · simp
    · intro rc2 out2 err2 hh
      injection hh with h1 h2 h3
      subst h1; subst h2; subst h3
      exact ⟨rfl, rfl, rfl⟩
    · intro hh; exact ExecOutcome.noConfusion hh
    · intro m hh; exact ExecOutcome.noConfusion hh
  | timedOut =>
    rw [runHook_timedOut exec h.command tid wd 300 hexec]
    refine ⟨rfl, rfl, rfl, ?_, ?_, ?_, ?_⟩
    · simp
    · intro rc out err hh; exact ExecOutcome.noConfusion hh
    · intro hh; exact ⟨rfl, rfl, rfl⟩
    · intro m hh; exact ExecOutcome.noConfusion hh
  | spawnError m =>
    rw [runHook_spawnError exec h.command tid wd 300 m hexec]
    refine ⟨rfl, rfl, rfl, ?_, ?_, ?_, ?_⟩
    · simp
    · intro rc out err hh; exact ExecOutcome.noConfusion hh
    · intro hh; exact ExecOutcome.noConfusion hh
    · intro m2 hh
      injection hh with h1
      subst h1
      exact ⟨rfl, rfl, rfl⟩

/-- A one-hook store exercising the pipeline. -/
def dbHook : Db :=
  { tasks := [], deps := [],
    hooks := [{ id := 1, event := "pre-close", command := "make test",
                enabled := true }] }

/-- The result row produced by a timed-out run of the hook in `dbHook`. -/
def wHookRes : HookResult :=
  { command := "make test", success := false, return_code := -1,
    stdout := "", stderr := "Command timed out after 300 seconds",
    hook_id := 1, event := "pre-close" }

/-- C6 (witness): with an oracle that times the command out, the single
result row carries the synthetic message and exit code −1. -/
theorem hook_pipeline_results_witness :
    runHooks (fun _ _ _ => .timedOut) dbHook "pre-close" none none =
      [wHookRes] ∧ wHookRes.success = false ∧ wHookRes.return_code = -1 ∧
    wHookRes.stderr = "Command timed out after 300 seconds" := by
  have h := (hook_pipeline_results (fun _ _ _ => .timedOut) dbHook
    "pre-close" none none).2
  rw [show getHooks dbHook "pre-close" =
        [{ id := 1, event := "pre-close", command := "make test",
           enabled := true }] from rfl,
      show runHooks (fun _ _ _ => .timedOut) dbHook "pre-close" none none =
        [wHookRes] from rfl, List.forall₂_cons] at h
  obtain ⟨hrel, -⟩ := h
  obtain ⟨-, -, -, -, -, htime, -⟩ := hrel
  exact ⟨rfl, htime rfl⟩

/-- The result dictionary of `hooks.validate_task`. -/
structure ValidationOutcome where
  valid : Bool
  quality_score : Option ℚ
  results : List HookResult
  error : Option String
deriving DecidableEq

/-- The score computed by `validate_task`: count of successful hooks over
count of hooks run (exact rational; the Python float is its rounding). -/
def qualityScore (rs : List HookResult) : ℚ :=
  ((rs.filter (fun r => r.success)).length : ℚ) / (rs.length : ℚ)

/-- `hooks.validate_task`: run the pre-close hooks without a status change;
when at least one hook ran, compute and persist the quality score
(passed count over run count). -/
def validateTask (exec : Exec) (db : Db) (tid : String)
    (working_dir : Option String) (now : Nat) : ValidationOutcome × Db :=
  match getTask db tid with
  | none =>
    ({ valid := false, quality_score := none, results := [],
       error := some ("Task " ++ tid ++ " not found") }, db)
  | some _ =>
    let results := runHooks exec db "pre-close" (some tid) working_dir
    let all_passed := results.all (fun r => r.success)
    if results.isEmpty then
      ({ valid := all_passed, quality_score := none, results := results,
         error := none }, db)
    else
      ({ valid := all_passed, quality_score := some (qualityScore results),
         results := results, error := none },
       updateTaskDb db tid { quality_score := some (qualityScore results) }
         now)

/-- C7: validation runs the pre-close hooks without changing the task's
status; when at least one hook ran, the quality score equals the count of
successful hooks over the count run and is persisted onto the task; with
zero hooks configured for the event, no score is computed and nothing is
persisted. -/
theorem validate_scores_without_status_change (exec : Exec) (db : Db)
    (tid : String) (wd : Option String) (now : Nat) (t : Task)
    (ht : getTask db tid = some t) :
    (∀ t2, getTask (validateTask exec db tid wd now).2 tid = some t2 →
      t2.status = t.status) ∧
    (runHooks exec db "pre-close" (some tid) wd = [] →
      (validateTask exec db tid wd now).2 = db ∧
      (validateTask exec db tid wd now).1.quality_score = none) ∧
    (∀ r rs, runHooks exec db "pre-close" (some tid) wd = r :: rs →
      (validateTask exec db tid wd now).1.quality_score =
        some ((((r :: rs).filter (fun x => x.success)).length : ℚ) /
          ((r :: rs).length : ℚ)) ∧
      ∃ t2, getTask (validateTask exec db tid wd now).2 tid = some t2 ∧
        t2.quality_score =
          some ((((r :: rs).filter (fun x => x.success)).length : ℚ) /
            ((r :: rs).length : ℚ))) ∧
    (runHooks exec db "pre-close" (some tid) wd = [] ↔
      getHooks db "pre-close" = []) := by
  have hempty : runHooks exec db "pre-close" (some tid) wd = [] ↔
      getHooks db "pre-close" = [] := by
    rw [runHooks_eq_map, List.map_eq_nil_iff]
  refine ⟨?_, ?_, ?_, hempty⟩
  · intro t2 h2
    unfold validateTask at h2
    rw [ht] at h2
    by_cases hres : runHooks exec db "pre-close" (some tid) wd = []
    · rw [if_pos (by simp [hres])] at h2
      simp only at h2
      rw [ht] at h2
      cases h2
      rfl
    · rw [if_neg (by simp [hres])] at h2
      simp only at h2
      rw [getTask_update_self (by rfl), ht] at h2
      cases h2
      rfl
  · intro hres
    unfold validateTask
    rw [ht, if_pos (by simp [hres])]
    exact ⟨rfl, rfl⟩
  · intro r rs hres
    unfold validateTask
    rw [ht, if_neg (by simp [hres]), hres]
    refine ⟨rfl,
      applyPatch t { quality_score := some (qualityScore (r :: rs)) } now,
      ?_, rfl⟩
    show getTask (updateTaskDb db tid
      { quality_score := some (qualityScore (r :: rs)) } now) tid = _
    rw [getTask_update_self (by rfl), ht]
    rfl

/-- A store with one task and one passing hook, exercising validation. -/
def dbVal : Db :=
  { tasks := [tUpd], deps := [],
    hooks := [{ id := 1, event := "pre-close", command := "make test",
                enabled := true }] }

/-- C7 (witness): one passing hook yields quality score 1 persisted onto
the task, with status untouched. -/
theorem validate_scores_witness :
    ∃ t2, getTask (validateTask (fun _ _ _ => .completed 0 "" "")
        dbVal "a" none 9).2 "a" = some t2 ∧
      t2.status = tUpd.status ∧ t2.quality_score = some 1 := by
  have h := validate_scores_without_status_change
    (fun _ _ _ => .completed 0 "" "") dbVal "a" none 9 tUpd rfl
  obtain ⟨hstat, -, hrun, -⟩ := h
  obtain ⟨-, t2, hget, hq⟩ := hrun
    { command := "make test", success := true, return_code := 0,
      stdout := "", stderr := "", hook_id := 1, event := "pre-close" }
    [] (by rfl)
  refine ⟨t2, hget, hstat t2 hget, ?_⟩
  rw [hq]
  norm_num

/-- One rollup level's write: parent becomes done when all children are
done or cancelled, else in_progress when some child is in_progress and
the parent is open, else nothing is written. -/
def rollupWrite (db : Db) (pid : String) (parent : Task) (now : Nat) : Db :=
  if (getChildren db pid).all
      (fun c => c.status == "done" || c.status == "cancelled") then
    updateTaskDb db pid { status := some "done" } now
  else if (getChildren db pid).any (fun c => c.status == "in_progress") &&
      (parent.status == "open") then
    updateTaskDb db pid { status := some "in_progress" } now
  else db

/-- `decompose.update_parent_status`: recompute the parent's status from
its children and recurse upward unconditionally.  The Python recursion is
unbounded; `fuel` bounds the embedded recursion depth (one unit per
ancestor level), which is faithful on the acyclic parent chains the
orchestrator maintains. -/
def updateParentStatus : Nat → Nat → Db → String → Db
  | 0, _, db, _ => db
  | fuel + 1, now, db, tid =>
    match getTask db tid with
    | none => db
    | some t =>
      match t.parent_id with
      | none => db
      | some pid =>
        if (getChildren db pid).isEmpty then db
        else
          match getTask db pid with
          | none => db
          | some parent =>
            updateParentStatus fuel now (rollupWrite db pid parent now) pid

theorem children_mem_iff {db : Db} {pid : String} {c : Task} :
    c ∈ getChildren db pid ↔ c ∈ db.tasks ∧ c.parent_id = some pid := by
  unfold getChildren listTasks
  rw [List.mem_insertionSort, List.mem_filter]
  simp [rowMatches]

theorem children_nonempty {db : Db} {pid : String} {t : Task}
    (hmem : t ∈ db.tasks) (hp : t.parent_id = some pid) :
    (getChildren db pid).isEmpty = false := by
  have hc : t ∈ getChildren db pid := children_mem_iff.mpr ⟨hmem, hp⟩
  cases h : getChildren db pid with
  | nil => rw [h] at hc; cases hc
  | cons a l => rfl

theorem children_all_done_iff (db : Db) (pid : String) :
    ((getChildren db pid).all
        (fun c => c.status == "done" || c.status == "cancelled") = true) ↔
      ∀ c ∈ db.tasks, c.parent_id = some pid →
        (c.status = "done" ∨ c.status = "cancelled") := by
  rw [List.all_eq_true]
  constructor
  · intro h c hc hp
    have := h c (children_mem_iff.mpr ⟨hc, hp⟩)
    simpa using this
  · intro h c hc
    obtain ⟨hmem, hp⟩ := children_mem_iff.mp hc
    simpa using h c hmem hp

theorem children_any_ip_iff (db : Db) (pid : String) :
    ((getChildren db pid).any (fun c => c.status == "in_progress") = true) ↔
      ∃ c ∈ db.tasks, c.parent_id = some pid ∧
        c.status = "in_progress" := by
  rw [List.any_eq_true]
  constructor
  · intro ⟨c, hc, hs⟩
    obtain ⟨hmem, hp⟩ := children_mem_iff.mp hc
    exact ⟨c, hmem, hp, by simpa using hs⟩
  · intro ⟨c, hmem, hp, hs⟩
    exact ⟨c, children_mem_iff.mpr ⟨hmem, hp⟩, by simpa using hs⟩

theorem updateParentStatus_step (fuel now : Nat) (db : Db) (tid pid : String)
    (t P : Task) (ht : getTask db tid = some t) (hp : t.parent_id = some pid)
    (hne : (getChildren db pid).isEmpty = false)
    (hP : getTask db pid = some P) :
    updateParentStatus (fuel + 1) now db tid =
      updateParentStatus fuel now (rollupWrite db pid P now) pid := by
  simp only [updateParentStatus, ht, hp, hne, hP, Bool.false_eq_true,
    if_false]

/-- C3: after a status change of a task with parent P, one rollup level
sets P's status to done when every direct child is done or cancelled,
else to in_progress when some child is in_progress and P is currently
open, else leaves it unchanged — and it then recurses on P
unconditionally (even when P was not changed), while a task with no
parent terminates the recursion with the store untouched.  Only P's row
is written at this level. -/
theorem rollup_parent_rule (fuel now : Nat) (db : Db) (tid : String)
    (t : Task) (ht : getTask db tid = some t) :
    (t.parent_id = none → updateParentStatus fuel now db tid = db) ∧
    (∀ pid P, t.parent_id = some pid → getTask db pid = some P →
      ∃ db2, updateParentStatus (fuel + 1) now db tid =
          updateParentStatus fuel now db2 pid ∧
        (∀ x, x ≠ pid → getTask db2 x = getTask db x) ∧
        ∃ P2, getTask db2 pid = some P2 ∧ P2.parent_id = P.parent_id ∧
          P2.status =
            (if ∀ c ∈ db.tasks, c.parent_id = some pid →
                (c.status = "done" ∨ c.status = "cancelled") then "done"
             else if (∃ c ∈ db.tasks, c.parent_id = some pid ∧
                 c.status = "in_progress") ∧ P.status = "open" then
               "in_progress"
             else P.status)) := by
  constructor
  · intro hnone
    cases fuel with
    | zero => rfl
    | succ f => simp only [updateParentStatus, ht, hnone]
  · intro pid P hp hP
    have hne := children_nonempty (getTask_mem ht) hp
    refine ⟨_, updateParentStatus_step fuel now db tid pid t P ht hp hne hP,
      ?_, ?_⟩
    all_goals unfold rollupWrite
    all_goals
      by_cases hall : ((getChildren db pid).all
        (fun c => c.status == "done" || c.status == "cancelled")) = true
    case pos =>
      rw [if_pos hall]
      intro x hx
      exact getTask_update_ne hx
    case neg =>
      rw [if_neg hall]
      by_cases hip : ((getChildren db pid).any
          (fun c => c.status == "in_progress") && (P.status == "open")) = true
      · rw [if_pos hip]
        intro x hx
        exact getTask_update_ne hx
      · rw [if_neg hip]
        intro x hx
        rfl
    case pos =>
      rw [if_pos hall]
      refine ⟨applyPatch P { status := some "done" } now, ?_, rfl, ?_⟩
      · rw [getTask_update_self (by rfl), hP]
        rfl
      · rw [if_pos ((children_all_done_iff db pid).mp hall)]
        rfl
    case neg =>
      rw [if_neg hall]
      have hnall : ¬ ∀ c ∈ db.tasks, c.parent_id = some pid →
          (c.status = "done" ∨ c.status = "cancelled") :=
        fun h => hall ((children_all_done_iff db pid).mpr h)
      by_cases hip : ((getChildren db pid).any
          (fun c => c.status == "in_progress") && (P.status == "open")) = true
      · rw [if_pos hip]
        obtain ⟨hany, hopen⟩ := Bool.and_eq_true _ _ |>.mp hip
        refine ⟨applyPatch P { status := some "in_progress" } now, ?_, rfl,
          ?_⟩
        · rw [getTask_update_self (by rfl), hP]
          rfl
        · rw [if_neg hnall, if_pos ⟨(children_any_ip_iff db pid).mp hany,
            beq_iff_eq.mp hopen⟩]
          rfl
      · rw [if_neg hip]
        refine ⟨P, hP, rfl, ?_⟩
        rw [if_neg hnall, if_neg ?hcond]
        case hcond =>
          intro ⟨hex, hopen⟩
          exact hip (Bool.and_eq_true _ _ |>.mpr
            ⟨(children_any_ip_iff db pid).mpr hex, beq_iff_eq.mpr hopen⟩)

/-- A concrete parent task (open, no parent). -/
def pRoll : Task :=
  { id := "p", title := "P", description := "", task_type := "task",
    priority := 2, story_points := none, estimated_minutes := none,
    status := "open", parent_id := none, acceptance_criteria := [],
    quality_score := none, assignee := none, labels := [],
    created_at := 0, updated_at := 0, due_at := none, defer_until := none }

/-- A concrete child of `pRoll`, already done. -/
def cRoll : Task :=
  { pRoll with
    id := "c"
    parent_id := some "p"
    status := "done"
    created_at := 1 }

/-- A two-task store: parent `p` with sole child `c` (done). -/
def dbRoll : Db := { tasks := [pRoll, cRoll], deps := [], hooks := [] }

/-- C3 (witness): with the sole child done, one rollup level marks the
parent done and recurses on it. -/
theorem rollup_parent_rule_witness :
    ∃ db2, updateParentStatus 1 5 dbRoll "c" =
        updateParentStatus 0 5 db2 "p" ∧
      ∃ P2, getTask db2 "p" = some P2 ∧ P2.status = "done" := by
  obtain ⟨db2, heq, -, P2, hg, -, hstat⟩ :=
    (rollup_parent_rule 0 5 dbRoll "c" cRoll rfl).2 "p" pRoll rfl rfl
  refine ⟨db2, heq, P2, hg, ?_⟩
  rw [hstat, if_pos (by decide)]

theorem bool_not_true {b : Bool} (h : ¬ b = true) : b = false := by
  cases b
  · rfl
  · exact absurd rfl h

theorem updateTaskDb_empty {db : Db} {tid : String} {p : TaskPatch}
    {now : Nat} (h : p.isEmpty = true) :
    updateTaskDb db tid p now = db := by
  unfold updateTaskDb
  rw [if_pos h]

/-- The chain of parent ids reachable from a task by repeatedly following
`parent_id`, cut off by `fuel`. -/
def chainParents : Nat → Db → String → List String
  | 0, _, _ => []
  | fuel + 1, db, tid =>
    match getTask db tid with
    | none => []
    | some t =>
      match t.parent_id with
      | none => []
      | some pid => pid :: chainParents fuel db pid

theorem chainParents_update (fuel : Nat) (db : Db) (tid : String)
    (p : TaskPatch) (now : Nat) (hpp : p.parent_id = none) (x : String) :
    chainParents fuel (updateTaskDb db tid p now) x =
      chainParents fuel db x := by
  induction fuel generalizing x with
  | zero => rfl
  | succ f ih =>
    by_cases hemp : p.isEmpty = true
    · rw [updateTaskDb_empty hemp]
    · have hupd := getTask_updateTaskDb db tid p now x
      rw [if_neg hemp] at hupd
      cases hg : getTask db x with
      | none =>
        rw [hg] at hupd
        simp only [Option.map_none'] at hupd
        simp only [chainParents, hupd, hg]
      | some t =>
        rw [hg] at hupd
        simp only [Option.map_some'] at hupd
        by_cases hid : (t.id == tid) = true
        · rw [if_pos hid] at hupd
          simp only [chainParents, hupd, hg]
          have hpar : (applyPatch t p now).parent_id = t.parent_id := by
            simp [applyPatch, hpp]
          rw [hpar]
          cases t.parent_id with
          | none => rfl
          | some pid => simp only [ih]
        · rw [if_neg hid] at hupd
          simp only [chainParents, hupd, hg]
          cases t.parent_id with
          | none => rfl
          | some pid => simp only [ih]

theorem getTask_rollupWrite_ne {db : Db} {pid : String} {parent : Task}
    {now : Nat} {x : String} (hx : x ≠ pid) :
    getTask (rollupWrite db pid parent now) x = getTask db x := by
  unfold rollupWrite
  split
  · exact getTask_update_ne hx
  · split
    · exact getTask_update_ne hx
    · rfl

theorem chainParents_rollupWrite (fuel : Nat) (db : Db) (pid : String)
    (parent : Task) (now : Nat) (x : String) :
    chainParents fuel (rollupWrite db pid parent now) x =
      chainParents fuel db x := by
  unfold rollupWrite
  split
  · exact chainParents_update fuel db pid _ now rfl x
  · split
    · exact chainParents_update fuel db pid _ now rfl x
    · rfl

/-- The rollup recursion only ever writes to tasks on the parent chain of
its argument: any id outside `chainParents` is untouched. -/
theorem updateParentStatus_frame (fuel now : Nat) (db : Db) (tid x : String)
    (hx : x ∉ chainParents fuel db tid) :
    getTask (updateParentStatus fuel now db tid) x = getTask db x := by
  induction fuel generalizing db tid with
  | zero => rfl
  | succ f ih =>
    cases ht : getTask db tid with
    | none => simp only [updateParentStatus, ht]
    | some t =>
      cases hp : t.parent_id with
      | none => simp only [updateParentStatus, ht, hp]
      | some pid =>
        simp only [chainParents, ht, hp, List.mem_cons, not_or] at hx
        obtain ⟨hx1, hx2⟩ := hx
        by_cases hne : ((getChildren db pid).isEmpty) = true
        · simp only [updateParentStatus, ht, hp, hne, if_true]
        · cases hP : getTask db pid with
          | none =>
            simp only [updateParentStatus, ht, hp, hP]
            split <;> rfl
          | some parent =>
            rw [updateParentStatus_step f now db tid pid t parent ht hp
              (bool_not_true hne) hP]
            rw [ih (rollupWrite db pid parent now) pid
              (by rw [chainParents_rollupWrite]; exact hx2)]
            exact getTask_rollupWrite_ne hx1

/-- The description written by `cli.close`: the closing reason, when given,
is appended to (or replaces an empty) description. -/
def closeDescription (existing : Task) (reason : Option String) : String :=
  match reason with
  | some r =>
    if existing.description == "" then "Closed: " ++ r
    else existing.description ++ "\n\nClosed: " ++ r
  | none => existing.description

/-- The observable outcome of the `close` command. -/
inductive CloseOutcome where
  | notFound
  | hooksFailed (results : List HookResult)
  | closed (results : List HookResult)
deriving DecidableEq

/-- `cli.close`: run the pre-close hooks first; reject the close with the
full result list and no store write when any failed; otherwise mark the
task done and roll its ancestors up. -/
def cliClose (exec : Exec) (db : Db) (tid : String) (reason : Option String)
    (working_dir : Option String) (now fuel : Nat) : CloseOutcome × Db :=
  match getTask db tid with
  | none => (.notFound, db)
  | some existing =>
    let results := runHooks exec db "pre-close" (some tid) working_dir
    if results.any (fun r => !r.success) then (.hooksFailed results, db)
    else
      let db1 := updateTaskDb db tid
        { status := some "done",
          description := some (closeDescription existing reason) } now
      (.closed results, updateParentStatus fuel now db1 tid)

/-- C4: closing first runs all enabled pre-close hooks; when at least one
result reports failure the close is rejected with the full per-hook result
list and the store (in particular the task's status) is left unchanged;
when every hook succeeds — including when no hooks are configured — the
task's status transitions to done. -/
theorem close_gating (exec : Exec) (db : Db) (tid : String)
    (reason : Option String) (wd : Option String) (now fuel : Nat) (t : Task)
    (ht : getTask db tid = some t)
    (hcyc : tid ∉ chainParents fuel db tid) :
    ((runHooks exec db "pre-close" (some tid) wd).any
        (fun r => !r.success) = true →
      cliClose exec db tid reason wd now fuel =
        (.hooksFailed (runHooks exec db "pre-close" (some tid) wd), db)) ∧
    ((runHooks exec db "pre-close" (some tid) wd).any
        (fun r => !r.success) = false →
      (cliClose exec db tid reason wd now fuel).1 =
        .closed (runHooks exec db "pre-close" (some tid) wd) ∧
      ∃ t2, getTask (cliClose exec db tid reason wd now fuel).2 tid =
          some t2 ∧ t2.status = "done") := by
  constructor
  · intro hfail
    simp only [cliClose, ht]
    rw [if_pos hfail]
  · intro hok
    simp only [cliClose, ht]
    rw [if_neg (by simp [hok])]
    refine ⟨rfl, applyPatch t
      { status := some "done",
        description := some (closeDescription t reason) } now, ?_, rfl⟩
    show getTask (updateParentStatus fuel now (updateTaskDb db tid
      { status := some "done",
        description := some (closeDescription t reason) } now) tid) tid = _
    rw [updateParentStatus_frame fuel now _ tid tid
      (by rw [chainParents_update fuel db tid _ now rfl]; exact hcyc)]
    rw [getTask_update_self (by rfl), ht]
    rfl

/-- C4 (witness): with no hooks configured, closing `tUpd` marks it done. -/
theorem close_gating_witness :
    ∃ t2, getTask (cliClose (fun _ _ _ => .completed 0 "" "") dbUpd "a"
        none none 3 2).2 "a" = some t2 ∧ t2.status = "done" := by
  have h := (close_gating (fun _ _ _ => .completed 0 "" "") dbUpd "a"
    none none 3 2 tUpd rfl (by decide)).2 (by rfl)
  exact h.2

/-- Arguments of `Storage.create_task` (the id and clock come from the
environment: id generator and `datetime.now`). -/
structure CreateArgs where
  title : String
  description : String := ""
  task_type : String := "task"
  priority : Int := 2
  story_points : Option Int := none
  estimated_minutes : Option Int := none
  parent_id : Option String := none
  acceptance_criteria : List String := []
  assignee : Option String := none
  labels : List String := []
  due_at : Option PyDateTime := none
  defer_until : Option PyDateTime := none

/-- The fresh row built by `Storage.create_task`: status open, no quality
score, creation and update stamps set to now, the datetime arguments stored
as their isoformat TEXT. -/
def mkTask (id : String) (now : Nat) (a : CreateArgs) : Task :=
  { id := id, title := a.title, description := a.description,
    task_type := a.task_type, priority := a.priority,
    story_points := a.story_points,
    estimated_minutes := a.estimated_minutes, status := "open",
    parent_id := a.parent_id,
    acceptance_criteria := a.acceptance_criteria, quality_score := none,
    assignee := a.assignee, labels := a.labels, created_at := now,
    updated_at := now, due_at := a.due_at.map isoformat,
    defer_until := a.defer_until.map isoformat }

/-- `Storage.create_task`: insert the fresh row and return it. -/
def createTask (db : Db) (id : String) (now : Nat) (a : CreateArgs) :
    Task × Db :=
  (mkTask id now a, { db with tasks := db.tasks ++ [mkTask id now a] })

/-- The child-creation loop of `decompose.decompose_task`: one child per
title, inheriting the parent's priority, with the story-point value taken
positionally (`story_points[i] if story_points and i < len(story_points)
else None`, modelled by consuming head/tail).  Fresh ids are supplied by
the `ids` list (the id generator). -/
def createSubtasks :
    Db → String → Int → List String → Option (List Int) → List String →
      Nat → List Task × Db
  | db, _, _, [], _, _, _ => ([], db)
  | db, _, _, _ :: _, _, [], _ => ([], db)
  | db, pid, prio, title :: ts, points, id :: ids, now =>
    let pr := createTask db id now
      { title := title, priority := prio, parent_id := some pid,
        story_points :=
          match points with | some pl => pl.head? | none => none }
    let rest := createSubtasks pr.2 pid prio ts (points.map List.tail) ids
      now
    (pr.1 :: rest.1, rest.2)

/-- Observable outcome of decomposition. -/
inductive DecomposeOutcome where
  | invalidPoints
  | notFound
  | ok (subtasks : List Task)
deriving DecidableEq

/-- `decompose.decompose_task`: not-found error when the parent does not
resolve (no child created); otherwise create all children, then flip the
parent's classification to epic when it is not already epic. -/
def decomposeTask (db : Db) (pid : String) (titles : List String)
    (points : Option (List Int)) (ids : List String) (now : Nat) :
    DecomposeOutcome × Db :=
  match getTask db pid with
  | none => (.notFound, db)
  | some parent =>
    let r := createSubtasks db pid parent.priority titles points ids now
    (.ok r.1,
     if parent.task_type == "epic" then r.2
     else updateTaskDb r.2 pid { task_type := some "epic" } now)

/-- `cli.decompose`: a points list whose length differs from the title
count is rejected before any store mutation. -/
def cliDecompose (db : Db) (pid : String) (titles : List String)
    (points : Option (List Int)) (ids : List String) (now : Nat) :
    DecomposeOutcome × Db :=
  match points with
  | some pl =>
    if pl.length ≠ titles.length then (.invalidPoints, db)
    else decomposeTask db pid titles (some pl) ids now
  | none => decomposeTask db pid titles none ids now

theorem createSubtasks_spec (titles : List String) (ids : List String)
    (db : Db) (pid : String) (prio : Int) (points : Option (List Int))
    (now : Nat) (hlen : ids.length = titles.length) :
    (createSubtasks db pid prio titles points ids now).2.tasks =
      db.tasks ++ (createSubtasks db pid prio titles points ids now).1 ∧
    (createSubtasks db pid prio titles points ids now).2.deps = db.deps ∧
    (createSubtasks db pid prio titles points ids now).2.hooks = db.hooks ∧
    (createSubtasks db pid prio titles points ids now).1.length =
      titles.length ∧
    (∀ i s, (createSubtasks db pid prio titles points ids now).1.get? i =
        some s →
      s.parent_id = some pid ∧ s.priority = prio ∧
      titles.get? i = some s.title ∧ ids.get? i = some s.id ∧
      s.story_points = points.bind (fun pl => pl.get? i) ∧
      s.task_type = "task" ∧ s.status = "open" ∧ s.created_at = now) := by
  induction titles generalizing db ids points with
  | nil =>
    refine ⟨by simp [createSubtasks], rfl, rfl, rfl, ?_⟩
    intro i s hs
    simp [createSubtasks] at hs
  | cons title ts ih =>
    cases ids with
    | nil => cases hlen
    | cons id ids' =>
      have hlen' : ids'.length = ts.length := by
        simpa using hlen
      obtain ⟨h1, h2, h3, h4, h5⟩ := ih ids'
        (createTask db id now
          { title := title, priority := prio, parent_id := some pid,
            story_points :=
              match points with | some pl => pl.head? | none => none }).2
        (points.map List.tail) hlen'
      simp only [createSubtasks]
      refine ⟨?_, by simpa using h2, by simpa using h3, by simpa using h4,
        ?_⟩
      · rw [h1]
        simp [createTask]
      · intro i s hs
        cases i with
        | zero =>
          simp only [List.get?] at hs
          cases hs
          refine ⟨rfl, rfl, rfl, rfl, ?_, rfl, rfl, rfl⟩
          cases points with
          | none => rfl
          | some pl => cases pl <;> rfl
        | succ n =>
          simp only [List.get?] at hs
          obtain ⟨g1, g2, g3, g4, g5, g6, g7, g8⟩ := h5 n s hs
          refine ⟨g1, g2, g3, g4, ?_, g6, g7, g8⟩
          rw [g5]
          cases points with
          | none => rfl
          | some pl => cases pl <;> rfl

theorem updateTaskDb_tasks {db : Db} {tid : String} {p : TaskPatch}
    {now : Nat} (h : p.isEmpty = false) :
    (updateTaskDb db tid p now).tasks =
      db.tasks.map
        (fun t => if t.id == tid then applyPatch t p now else t) := by
  unfold updateTaskDb
  rw [if_neg (by simp [h])]

theorem decomposeTask_ok (db : Db) (pid : String) (titles ids : List String)
    (points : Option (List Int)) (now : Nat) (parent : Task)
    (hP : getTask db pid = some parent) (hlen : ids.length = titles.length)
    (hpid : pid ∉ ids) :
    ∃ subs,
      (decomposeTask db pid titles points ids now).1 = .ok subs ∧
      subs.length = titles.length ∧
      (∀ i s, subs.get? i = some s →
        s.parent_id = some pid ∧ s.priority = parent.priority ∧
        titles.get? i = some s.title ∧ ids.get? i = some s.id ∧
        s.story_points = points.bind (fun pl => pl.get? i)) ∧
      (∃ P2, getTask (decomposeTask db pid titles points ids now).2 pid =
        some P2 ∧ P2.task_type = "epic") ∧
      (decomposeTask db pid titles points ids now).2.tasks =
        (if parent.task_type == "epic" then db.tasks
         else db.tasks.map (fun x => if x.id == pid then
           applyPatch x { task_type := some "epic" } now else x)) ++
          subs := by
  obtain ⟨h1, h2, h3, h4, h5⟩ :=
    createSubtasks_spec titles ids db pid parent.priority points now hlen
  have hsubid : ∀ s,
      s ∈ (createSubtasks db pid parent.priority titles points ids now).1 →
      s.id ∈ ids := by
    intro s hs
    obtain ⟨n, hn⟩ := List.get?_of_mem hs
    obtain ⟨-, -, -, hid, -⟩ := h5 n s hn
    exact List.get?_mem hid
  have hmapid :
      (createSubtasks db pid parent.priority titles points ids now).1.map
        (fun x => if x.id == pid then
          applyPatch x { task_type := some "epic" } now else x) =
      (createSubtasks db pid parent.priority titles points ids now).1 := by
    rw [List.map_congr_left, List.map_id]
    intro s hs
    have : s.id ≠ pid := by
      intro he
      exact hpid (he ▸ hsubid s hs)
    simp [this]
  refine ⟨(createSubtasks db pid parent.priority titles points ids now).1,
    by simp only [decomposeTask, hP], h4, ?_, ?_, ?_⟩
  · intro i s hs
    obtain ⟨g1, g2, g3, g4, g5, -⟩ := h5 i s hs
    exact ⟨g1, g2, g3, g4, g5⟩
  · simp only [decomposeTask, hP]
    by_cases hep : (parent.task_type == "epic") = true
    · rw [if_pos hep]
      refine ⟨parent, ?_, beq_iff_eq.mp hep⟩
      show List.find? _ _ = _
      rw [h1, List.find?_append]
      have : List.find? (fun t => t.id == pid) db.tasks = some parent := hP
      rw [this]
      rfl
    · rw [if_neg hep]
      refine ⟨applyPatch parent { task_type := some "epic" } now, ?_, rfl⟩
      rw [getTask_update_self (by rfl)]
      have : getTask
          (createSubtasks db pid parent.priority titles points ids now).2
          pid = some parent := by
        show List.find? _ _ = _
        rw [h1, List.find?_append]
        have hfp : List.find? (fun t => t.id == pid) db.tasks =
          some parent := hP
        rw [hfp]
        rfl
      rw [this]
      rfl
  · simp only [decomposeTask, hP]
    by_cases hep : (parent.task_type == "epic") = true
    · rw [if_pos hep, if_pos hep, h1]
    · rw [if_neg hep, if_neg hep, updateTaskDb_tasks (by rfl), h1,
        List.map_append, hmapid]

/-- C5: decompose rejects a points list whose length differs from the
title count with no child created, rejects an unresolvable parent id with
no child created, and otherwise creates exactly one child per title —
each with `parent_id = P.id`, the parent's priority, and the positional
story-point value — and flips the parent's classification to epic when it
is not already epic. -/
theorem decompose_creates_children (db : Db) (pid : String)
    (titles ids : List String) (points : Option (List Int)) (now : Nat) :
    ((∃ pl, points = some pl ∧ pl.length ≠ titles.length) →
      cliDecompose db pid titles points ids now = (.invalidPoints, db)) ∧
    ((∀ pl, points = some pl → pl.length = titles.length) →
      getTask db pid = none →
      cliDecompose db pid titles points ids now = (.notFound, db)) ∧
    (∀ parent, (∀ pl, points = some pl → pl.length = titles.length) →
      getTask db pid = some parent → ids.length = titles.length →
      pid ∉ ids →
      ∃ subs,
        (cliDecompose db pid titles points ids now).1 = .ok subs ∧
        subs.length = titles.length ∧
        (∀ i s, subs.get? i = some s →
          s.parent_id = some pid ∧ s.priority = parent.priority ∧
          titles.get? i = some s.title ∧ ids.get? i = some s.id ∧
          s.story_points = points.bind (fun pl => pl.get? i)) ∧
        (∃ P2, getTask (cliDecompose db pid titles points ids now).2 pid =
          some P2 ∧ P2.task_type = "epic") ∧
        (cliDecompose db pid titles points ids now).2.tasks =
          (if parent.task_type == "epic" then db.tasks
           else db.tasks.map (fun x => if x.id == pid then
             applyPatch x { task_type := some "epic" } now else x)) ++
            subs) := by
  have hred : (∀ pl, points = some pl → pl.length = titles.length) →
      cliDecompose db pid titles points ids now =
        decomposeTask db pid titles points ids now := by
    intro hok
    cases points with
    | none => rfl
    | some pl =>
      simp only [cliDecompose]
      rw [if_neg (by simp [hok pl rfl])]
  refine ⟨?_, ?_, ?_⟩
  · intro ⟨pl, hpl, hne⟩
    subst hpl
    simp only [cliDecompose]
    rw [if_pos hne]
  · intro hok hnone
    rw [hred hok]
    simp only [decomposeTask, hnone]
  · intro parent hok hP hlen hpid
    rw [hred hok]
    exact decomposeTask_ok db pid titles ids points now parent hP hlen hpid

/-- A one-task store holding the parent `pRoll`. -/
def dbDec : Db := { tasks := [pRoll], deps := [], hooks := [] }

/-- C5 (witness): decomposing with two titles and matching points creates
two children and flips the parent to epic. -/
theorem decompose_creates_children_witness :
    ∃ subs,
      (cliDecompose dbDec "p" ["s1", "s2"] (some [3, 5])
        ["c1", "c2"] 4).1 = .ok subs ∧
      subs.length = 2 ∧
      ∃ P2, getTask (cliDecompose dbDec "p" ["s1", "s2"] (some [3, 5])
          ["c1", "c2"] 4).2 "p" = some P2 ∧ P2.task_type = "epic" := by
  obtain ⟨subs, o1, o2, -, o4, -⟩ :=
    (decompose_creates_children dbDec "p" ["s1", "s2"] ["c1", "c2"]
      (some [3, 5]) 4).2.2 pRoll (by intro pl h; cases h; rfl) rfl rfl
      (by decide)
  exact ⟨subs, o1, by rw [o2]; rfl, o4⟩

/-- Python's banker's rounding to an integer, on exact rationals. -/
def roundHalfEven (x : ℚ) : ℤ :=
  if x - ⌊x⌋ < 1 / 2 then ⌊x⌋
  else if 1 / 2 < x - ⌊x⌋ then ⌊x⌋ + 1
  else if ⌊x⌋ % 2 = 0 then ⌊x⌋ else ⌊x⌋ + 1

/-- Python's `round(x, 1)` on exact rationals. -/
def round1 (x : ℚ) : ℚ := (roundHalfEven (x * 10) : ℚ) / 10

/-- The dictionary returned by `decompose.get_subtask_progress` (the
`open` status count is `openCount`). -/
structure Progress where
  parent_id : String
  total : Nat
  done : Nat
  in_progress : Nat
  openCount : Nat
  blocked : Nat
  cancelled : Nat
  review : Nat
  progress_percent : ℚ
  total_points : Int
  completed_points : Int
deriving DecidableEq

/-- Count of children holding one status. -/
def countStatus (children : List Task) (s : String) : Nat :=
  (children.filter (fun c => c.status == s)).length

/-- The story-point accumulation loop of `get_subtask_progress`: a child
counts when its points are truthy (`if child.story_points:`), and towards
completed points when additionally its status is exactly done. -/
def pointsFold (children : List Task) : Int × Int :=
  children.foldl
    (fun acc c =>
      if c.story_points.getD 0 != 0 then
        (acc.1 + c.story_points.getD 0,
         if c.status == "done" then acc.2 + c.story_points.getD 0
         else acc.2)
      else acc)
    (0, 0)

/-- `decompose.get_subtask_progress`; `none` models the not-found error. -/
def getSubtaskProgress (db : Db) (pid : String) : Option Progress :=
  match getTask db pid with
  | none => none
  | some _ =>
    let children := getChildren db pid
    if children.isEmpty then
      some { parent_id := pid, total := 0, done := 0, in_progress := 0,
             openCount := 0, blocked := 0, cancelled := 0, review := 0,
             progress_percent := 0, total_points := 0,
             completed_points := 0 }
    else
      some { parent_id := pid, total := children.length,
             done := countStatus children "done",
             in_progress := countStatus children "in_progress",
             openCount := countStatus children "open",
             blocked := countStatus children "blocked",
             cancelled := countStatus children "cancelled",
             review := countStatus children "review",
             progress_percent :=
               if 0 < children.length - countStatus children "cancelled"
               then round1 (((countStatus children "done" : ℚ) /
                 ((children.length - countStatus children "cancelled" : Nat)
                   : ℚ)) * 100)
               else 0,
             total_points := (pointsFold children).1,
             completed_points := (pointsFold children).2 }

/-- The direct children of a task, as the spec quantifies them. -/
def childrenOf (db : Db) (pid : String) : List Task :=
  db.tasks.filter (fun c => c.parent_id == some pid)

theorem getChildren_perm (db : Db) (pid : String) :
    (getChildren db pid).Perm (childrenOf db pid) := by
  unfold getChildren listTasks childrenOf
  have hf : db.tasks.filter (rowMatches { parent_id := some pid }) =
      db.tasks.filter (fun c => c.parent_id == some pid) := by
    apply List.filter_congr
    intro c hc
    simp [rowMatches]
  show ((db.tasks.filter
    (rowMatches { parent_id := some pid })).insertionSort taskLE).Perm _
  rw [hf]
  exact List.perm_insertionSort taskLE _

theorem pointsFold_eq (l : List Task) (a b : Int) :
    l.foldl
      (fun acc c =>
        if c.story_points.getD 0 != 0 then
          (acc.1 + c.story_points.getD 0,
           if c.status == "done" then acc.2 + c.story_points.getD 0
           else acc.2)
        else acc)
      (a, b) =
    (a + ((l.filter (fun c => c.story_points.isSome)).map
        (fun c => c.story_points.getD 0)).sum,
     b + ((l.filter (fun c => c.story_points.isSome &&
          c.status == "done")).map
        (fun c => c.story_points.getD 0)).sum) := by
  induction l generalizing a b with
  | nil => simp
  | cons c cs ih =>
    simp only [List.foldl_cons]
    cases hsp : c.story_points with
    | none =>
      simp only [Option.getD_none, bne_self_eq_false, Bool.false_eq_true,
        if_false]
      rw [ih]
      simp [List.filter_cons, hsp]
    | some v =>
      by_cases hv : v = 0
      · subst hv
        simp only [Option.getD_some, bne_self_eq_false, Bool.false_eq_true,
          if_false]
        rw [ih]
        by_cases hst : (c.status == "done") = true <;>
          simp [List.filter_cons, hsp, hst]
      · simp only [Option.getD_some]
        rw [if_pos (show (v != 0) = true by simpa using hv)]
        by_cases hst : (c.status == "done") = true
        · rw [if_pos hst, ih]
          simp [List.filter_cons, hsp, hst, hv]
          try omega
        · rw [if_neg hst, ih]
          simp [List.filter_cons, hsp, hst, hv]
          try omega

/-- C8: progress reports percentDone = done / (total − cancelled) · 100
rounded to one decimal place, 0 when the denominator is zero (including
when there are no children); total points sum only over children carrying
a point estimate, and completed points only over children whose status is
exactly done. -/
theorem progress_formula (db : Db) (pid : String) (t : Task)
    (ht : getTask db pid = some t) :
    ∃ pr, getSubtaskProgress db pid = some pr ∧
      pr.total = (childrenOf db pid).length ∧
      pr.done = countStatus (childrenOf db pid) "done" ∧
      pr.cancelled = countStatus (childrenOf db pid) "cancelled" ∧
      ((childrenOf db pid).length -
          countStatus (childrenOf db pid) "cancelled" = 0 →
        pr.progress_percent = 0) ∧
      (0 < (childrenOf db pid).length -
          countStatus (childrenOf db pid) "cancelled" →
        pr.progress_percent = round1
          (((countStatus (childrenOf db pid) "done" : ℚ) /
            (((childrenOf db pid).length -
              countStatus (childrenOf db pid) "cancelled" : Nat) : ℚ)) *
            100)) ∧
      pr.total_points = (((childrenOf db pid).filter
          (fun c => c.story_points.isSome)).map
        (fun c => c.story_points.getD 0)).sum ∧
      pr.completed_points = (((childrenOf db pid).filter
          (fun c => c.story_points.isSome && c.status == "done")).map
        (fun c => c.story_points.getD 0)).sum := by
  have hperm := getChildren_perm db pid
  have hcount : ∀ s, countStatus (getChildren db pid) s =
      countStatus (childrenOf db pid) s :=
    fun s => (hperm.filter _).length_eq
  have hlen : (getChildren db pid).length = (childrenOf db pid).length :=
    hperm.length_eq
  unfold getSubtaskProgress
  rw [ht]
  by_cases hemp : ((getChildren db pid).isEmpty) = true
  · have hgnil : getChildren db pid = [] := by
      cases h : getChildren db pid with
      | nil => rfl
      | cons a l => rw [h] at hemp; cases hemp
    have hcnil : childrenOf db pid = [] := by
      rw [hgnil] at hperm
      exact hperm.symm.eq_nil
    rw [if_pos hemp]
    refine ⟨_, rfl, ?_, ?_, ?_, ?_, ?_, ?_, ?_⟩ <;>
      simp [hcnil, countStatus]
  · rw [if_neg hemp]
    refine ⟨_, rfl, hlen, hcount _, hcount _, ?_, ?_, ?_, ?_⟩
    · intro h0
      show (if 0 < (getChildren db pid).length -
          countStatus (getChildren db pid) "cancelled" then _ else 0) = 0
      rw [if_neg]
      rw [hlen, hcount]
      omega
    · intro h0
      show (if 0 < (getChildren db pid).length -
          countStatus (getChildren db pid) "cancelled" then _ else 0) = _
      rw [if_pos (by rw [hlen, hcount]; exact h0)]
      rw [hlen, hcount "done", hcount "cancelled"]
    · show (pointsFold (getChildren db pid)).1 = _
      unfold pointsFold
      rw [pointsFold_eq]
      show 0 + _ = _
      rw [zero_add]
      exact ((hperm.filter _).map _).sum_eq
    · show (pointsFold (getChildren db pid)).2 = _
      unfold pointsFold
      rw [pointsFold_eq]
      show 0 + _ = _
      rw [zero_add]
      exact ((hperm.filter _).map _).sum_eq

/-- Child of `pRoll` worth 3 points, done. -/
def cProg1 : Task :=
  { pRoll with
    id := "x1"
    parent_id := some "p"
    status := "done"
    story_points := some 3
    created_at := 1 }

/-- Child of `pRoll` worth 5 points, still open. -/
def cProg2 : Task :=
  { pRoll with
    id := "x2"
    parent_id := some "p"
    status := "open"
    story_points := some 5
    created_at := 2 }

/-- Parent with children worth {3, 5} points, only the 3-point child done. -/
def dbProg : Db := { tasks := [pRoll, cProg1, cProg2], deps := [], hooks := [] }

/-- C8 (witness): the spec's own example — completed 3, total 8, percent
50.0. -/
theorem progress_formula_witness :
    ∃ pr, getSubtaskProgress dbProg "p" = some pr ∧
      pr.total_points = 8 ∧ pr.completed_points = 3 ∧
      pr.progress_percent = 50 := by
  obtain ⟨pr, h0, -, -, -, -, h5, h6, h7⟩ :=
    progress_formula dbProg "p" pRoll rfl
  refine ⟨pr, h0, ?_, ?_, ?_⟩
  · rw [h6]; rfl
  · rw [h7]; rfl
  · rw [h5 (by decide)]
    have e1 : countStatus (childrenOf dbProg "p") "done" = 1 := rfl
    have e2 : (childrenOf dbProg "p").length = 2 := rfl
    have e3 : countStatus (childrenOf dbProg "p") "cancelled" = 0 := rfl
    rw [e1, e2, e3]
    have e4 : (((1 : ℕ) : ℚ) / ((2 - 0 : ℕ) : ℚ) * 100 : ℚ) = 50 := by
      norm_num
    rw [e4]
    unfold round1 roundHalfEven
    norm_num

/-- Characters on which the serialized-substring label matching is exact:
lowercase letters, digits and hyphen — no JSON-escaped characters, no
`LIKE` wildcards, no ASCII case folding, no serialization delimiters. -/
def safeChars : List Char := "abcdefghijklmnopqrstuvwxyz0123456789-".data

/-- A character from the exact-matching fragment. -/
def SafeChar (c : Char) : Prop := c ∈ safeChars

/-- A nonempty label over the exact-matching fragment. -/
def SafeStr (s : String) : Prop := s.data ≠ [] ∧ ∀ c ∈ s.data, SafeChar c

instance (c : Char) : Decidable (SafeChar c) := by
  unfold SafeChar
  exact inferInstance

instance (s : String) : Decidable (SafeStr s) := by
  unfold SafeStr
  exact inferInstance

theorem safeChar_facts : ∀ c ∈ safeChars,
    foldChar c = c ∧ escChar c = [c] ∧ c ≠ '"' ∧ c ≠ '%' ∧ c ≠ '_' ∧
    c ≠ ',' ∧ c ≠ ' ' ∧ c ≠ '[' ∧ c ≠ ']' ∧ c ≠ '\\' := by decide

theorem safe_no_quote {l : List Char} (h : ∀ c ∈ l, SafeChar c) :
    '"' ∉ l :=
  fun hm => (safeChar_facts _ (h _ hm)).2.2.1 rfl

theorem foldMap_id {l : List Char} (h : ∀ c ∈ l, foldChar c = c) :
    l.map foldChar = l := by
  rw [List.map_congr_left h, List.map_id']

theorem suffixAny_eq_true {f : List Char → Bool} {ts : List Char} :
    suffixAny f ts = true ↔ ∃ s, s <:+ ts ∧ f s = true := by
  induction ts with
  | nil =>
    simp [suffixAny, List.suffix_nil]
  | cons c cs ih =>
    simp only [suffixAny, Bool.or_eq_true, ih]
    constructor
    · rintro (h | ⟨s, hs, hf⟩)
      · exact ⟨c :: cs, List.suffix_refl _, h⟩
      · exact ⟨s, hs.trans (List.suffix_cons c cs), hf⟩
    · rintro ⟨s, hs, hf⟩
      rcases List.suffix_cons_iff.mp hs with h | h
      · subst h
        exact Or.inl hf
      · exact Or.inr ⟨s, h, hf⟩

theorem likeMatch_literal_trailing {X : List Char}
    (hX : ∀ c ∈ X, c ≠ '%' ∧ c ≠ '_') :
    ∀ ts, (likeMatch (X ++ ['%']) ts = true ↔
      X.map foldChar <+: ts.map foldChar) := by
  induction X with
  | nil =>
    intro ts
    simp only [List.nil_append, List.map_nil]
    constructor
    · intro _
      exact List.nil_prefix
    · intro _
      rw [show likeMatch ['%'] ts =
        suffixAny (fun s => likeMatch [] s) ts from by simp [likeMatch]]
      rw [suffixAny_eq_true]
      exact ⟨[], List.nil_suffix, rfl⟩
  | cons p ps ih =>
    intro ts
    have hp := hX p (List.mem_cons_self _ _)
    cases ts with
    | nil =>
      constructor
      · intro h
        rw [show likeMatch ((p :: ps) ++ ['%']) [] = false from by
          simp [likeMatch, hp.1]] at h
        cases h
      · intro h
        exact absurd h (by simp)
    | cons t ts' =>
      rw [show likeMatch ((p :: ps) ++ ['%']) (t :: ts') =
          ((foldChar p == foldChar t) && likeMatch (ps ++ ['%']) ts')
          from by simp [likeMatch, hp.1, hp.2]]
      rw [Bool.and_eq_true, beq_iff_eq,
        ih (fun c hc => hX c (List.mem_cons_of_mem _ hc)) ts']
      simp [List.cons_prefix_cons]

theorem likeMatch_contains_iff {X ts : List Char}
    (hX : ∀ c ∈ X, c ≠ '%' ∧ c ≠ '_')
    (hXf : ∀ c ∈ X, foldChar c = c) (htf : ∀ c ∈ ts, foldChar c = c) :
    (likeMatch ('%' :: (X ++ ['%'])) ts = true ↔ X <:+: ts) := by
  have hXm : X.map foldChar = X := foldMap_id hXf
  rw [show likeMatch ('%' :: (X ++ ['%'])) ts =
    suffixAny (fun s => likeMatch (X ++ ['%']) s) ts from by
      simp [likeMatch]]
  rw [suffixAny_eq_true]
  constructor
  · rintro ⟨s, hs, hf⟩
    have hsm : s.map foldChar = s :=
      foldMap_id (fun c hc => htf c (hs.subset hc))
    have := (likeMatch_literal_trailing hX s).mp hf
    rw [hXm, hsm] at this
    exact List.infix_iff_prefix_suffix.mpr ⟨s, this, hs⟩
  · intro hinf
    obtain ⟨s, hpre, hs⟩ := List.infix_iff_prefix_suffix.mp hinf
    have hsm : s.map foldChar = s :=
      foldMap_id (fun c hc => htf c (hs.subset hc))
    refine ⟨s, hs, (likeMatch_literal_trailing hX s).mpr ?_⟩
    rw [hXm, hsm]
    exact hpre

theorem escStr_safe {l : List Char} (h : ∀ c ∈ l, SafeChar c) :
    escStr l = l := by
  induction l with
  | nil => rfl
  | cons c cs ih =>
    show escChar c ++ escStr cs = c :: cs
    rw [(safeChar_facts c (h c (List.mem_cons_self _ _))).2.1,
      ih (fun x hx => h x (List.mem_cons_of_mem _ hx))]
    rfl

theorem mkInfixLeft {α : Type} {s t : List α} (h : s <+: t) :
    s <:+: t :=
  List.infix_iff_prefix_suffix.mpr ⟨t, h, List.suffix_refl t⟩

theorem mkInfixRight {α : Type} {s t : List α} (h : s <:+ t) :
    s <:+: t :=
  List.infix_iff_prefix_suffix.mpr ⟨s, List.prefix_refl s, h⟩

theorem quote_align {a b x y : List Char} (ha : '"' ∉ a) (hb : '"' ∉ b)
    (h : a ++ '"' :: x = b ++ '"' :: y) : a = b ∧ x = y := by
  induction a generalizing b with
  | nil =>
    cases b with
    | nil => simpa using h
    | cons d b' =>
      rw [List.nil_append] at h
      injection h with h1 h2
      exact absurd (h1 ▸ List.mem_cons_self d b') hb
  | cons c a' ih =>
    cases b with
    | nil =>
      rw [List.nil_append] at h
      injection h with h1 h2
      exact absurd (h1 ▸ List.mem_cons_self c a') ha
    | cons d b' =>
      injection h with h1 h2
      obtain ⟨e1, e2⟩ := ih (fun hm => ha (List.mem_cons_of_mem _ hm))
        (fun hm => hb (List.mem_cons_of_mem _ hm)) h2
      exact ⟨by rw [h1, e1], e2⟩

theorem prefix_append_split {α : Type} {s a b : List α} (h : s <+: a ++ b) :
    s <+: a ∨ ∃ s2, s = a ++ s2 ∧ s2 <+: b := by
  induction a generalizing s with
  | nil =>
    exact Or.inr ⟨s, rfl, by simpa using h⟩
  | cons c a' ih =>
    cases s with
    | nil => exact Or.inl List.nil_prefix
    | cons d s' =>
      rw [List.cons_append, List.cons_prefix_cons] at h
      obtain ⟨h1, h2⟩ := h
      rcases ih h2 with h3 | ⟨s2, h4, h5⟩
      · exact Or.inl (by rw [h1]; exact List.cons_prefix_cons.mpr ⟨rfl, h3⟩)
      · refine Or.inr ⟨s2, ?_, h5⟩
        rw [h1, h4]
        rfl

theorem infix_append_split {α : Type} {s a b : List α} (h : s <:+: a ++ b) :
    s <:+: a ∨ s <:+: b ∨
    ∃ s1 s2, s = s1 ++ s2 ∧ s1 ≠ [] ∧ s2 ≠ [] ∧ s1 <:+ a ∧ s2 <+: b := by
  induction a generalizing s with
  | nil =>
    exact Or.inr (Or.inl (by simpa using h))
  | cons c a' ih =>
    rw [List.cons_append, List.infix_cons_iff] at h
    rcases h with h | h
    · cases s with
      | nil => exact Or.inl (mkInfixLeft List.nil_prefix)
      | cons d s' =>
        rw [List.cons_prefix_cons] at h
        obtain ⟨h1, h2⟩ := h
        rcases prefix_append_split h2 with h3 | ⟨s2, h4, h5⟩
        · refine Or.inl (mkInfixLeft ?_)
          rw [h1]
          exact List.cons_prefix_cons.mpr ⟨rfl, h3⟩
        · by_cases hs2 : s2 = []
          · subst hs2
            refine Or.inl (mkInfixLeft ?_)
            rw [h1, h4, List.append_nil]
          · refine Or.inr (Or.inr ⟨c :: a', s2, ?_, by simp, hs2,
              List.suffix_refl _, h5⟩)
            rw [h1, h4]
            rfl
    · rcases ih h with h3 | h3 | ⟨s1, s2, h4, h5, h6, h7, h8⟩
      · exact Or.inl (List.infix_cons_iff.mpr (Or.inr h3))
      · exact Or.inr (Or.inl h3)
      · exact Or.inr (Or.inr ⟨s1, s2, h4, h5, h6,
          List.suffix_cons_iff.mpr (Or.inr h7), h8⟩)

theorem infix_drop_head {s t : List Char} {x : Char} (h : s <:+: x :: t)
    (hx : x ∉ s) : s <:+: t := by
  rcases List.infix_cons_iff.mp h with h1 | h1
  · cases s with
    | nil => exact mkInfixLeft List.nil_prefix
    | cons d s' =>
      rw [List.cons_prefix_cons] at h1
      exact absurd (h1.1 ▸ List.mem_cons_self d s') hx
  · exact h1

theorem infix_drop_last {s t : List Char} {x : Char} (h : s <:+: t ++ [x])
    (hx : x ∉ s) (hs : s ≠ []) : s <:+: t := by
  rcases infix_append_split h with h1 | h1 | ⟨s1, s2, h2, h3, h4, h5, h6⟩
  · exact h1
  · cases s with
    | nil => exact absurd rfl hs
    | cons d s' =>
      obtain ⟨pre, post, heq⟩ := h1
      have : d ∈ [x] := by
        have hmem : d ∈ pre ++ (d :: s') ++ post := by
          simp
        rw [heq] at hmem
        exact hmem
      rw [List.mem_singleton] at this
      exact absurd (this ▸ List.mem_cons_self d s') hx
  · have hxs2 : x ∈ s2 := by
      cases s2 with
      | nil => exact absurd rfl h4
      | cons d s2' =>
        rw [List.cons_prefix_cons] at h6
        exact h6.1 ▸ List.mem_cons_self d s2'
    refine absurd ?_ hx
    rw [h2]
    exact List.mem_append_right s1 hxs2

theorem pat_no_delim {L : List Char} (hL : ∀ c ∈ L, SafeChar c) :
    ∀ x : Char, x = ',' ∨ x = ' ' ∨ x = '[' ∨ x = ']' →
      x ∉ ('"' :: L ++ ['"']) := by
  intro x hx hm
  rcases List.mem_cons.mp hm with h | h
  · rcases hx with rfl | rfl | rfl | rfl <;> exact absurd h (by decide)
  · rcases List.mem_append.mp h with h | h
    · have hf := safeChar_facts x (hL x h)
      rcases hx with rfl | rfl | rfl | rfl
      · exact hf.2.2.2.2.2.1 rfl
      · exact hf.2.2.2.2.2.2.1 rfl
      · exact hf.2.2.2.2.2.2.2.1 rfl
      · exact hf.2.2.2.2.2.2.2.2.1 rfl
    · rw [List.mem_singleton] at h
      rcases hx with rfl | rfl | rfl | rfl <;> exact absurd h (by decide)

theorem quoted_infix_single {L l : List Char} (hL : ∀ c ∈ L, SafeChar c)
    (hl : ∀ c ∈ l, SafeChar c)
    (h : ('"' :: L ++ ['"']) <:+: quoteStr l) : L = l := by
  rw [quoteStr, escStr_safe hl] at h
  obtain ⟨pre, post, heq⟩ := h
  cases pre with
  | nil =>
    rw [List.nil_append] at heq
    simp only [List.cons_append, List.append_assoc,
      List.singleton_append] at heq
    injection heq with h1 h2
    obtain ⟨e1, e2⟩ := quote_align (safe_no_quote hL) (safe_no_quote hl)
      (show L ++ '"' :: post = l ++ '"' :: [] from by simpa using h2)
    exact e1
  | cons d pre' =>
    simp only [List.cons_append] at heq
    injection heq with h1 h2
    have hcl : List.count '"' (l ++ ['"']) = 1 := by
      rw [List.count_append]
      rw [List.count_eq_zero.mpr (safe_no_quote hl)]
      rfl
    have hL0 : List.count '"' L = 0 :=
      List.count_eq_zero.mpr (safe_no_quote hL)
    rw [← h2] at hcl
    simp [List.count_append, List.count_cons, hL0] at hcl
    omega

theorem quoted_infix_mem {L : List Char} {ls : List (List Char)}
    (hL : ∀ c ∈ L, SafeChar c)
    (hls : ∀ l ∈ ls, ∀ c ∈ l, SafeChar c)
    (h : ('"' :: L ++ ['"']) <:+: serializeInner ls) : L ∈ ls := by
  induction ls with
  | nil =>
    obtain ⟨pre, post, heq⟩ := h
    simp [serializeInner] at heq
  | cons l rest ih =>
    cases rest with
    | nil =>
      exact List.mem_singleton.mpr
        (quoted_infix_single hL (hls l (List.mem_cons_self _ _)) h)
    | cons l2 rest' =>
      have hassoc : serializeInner (l :: l2 :: rest') =
          (quoteStr l ++ [',', ' ']) ++ serializeInner (l2 :: rest') := by
        show quoteStr l ++ ',' :: ' ' :: serializeInner (l2 :: rest') = _
        simp
      rw [hassoc] at h
      rcases infix_append_split h with h1 | h1 | ⟨s1, s2, h2, h3, h4, h5, h6⟩
      · have hstep1 : ('"' :: L ++ ['"']) <:+: quoteStr l ++ [','] := by
          rw [show quoteStr l ++ [',', ' '] =
            (quoteStr l ++ [',']) ++ [' '] from by simp] at h1
          exact infix_drop_last h1
            (pat_no_delim hL ' ' (Or.inr (Or.inl rfl))) (by simp)
        have hstep2 : ('"' :: L ++ ['"']) <:+: quoteStr l :=
          infix_drop_last hstep1
            (pat_no_delim hL ',' (Or.inl rfl)) (by simp)
        have hLl : L = l :=
          quoted_infix_single hL (hls l (List.mem_cons_self _ _)) hstep2
        exact hLl ▸ List.mem_cons_self _ _
      · exact List.mem_cons_of_mem _
          (ih (fun x hx => hls x (List.mem_cons_of_mem _ hx)) h1)
      · obtain ⟨pre2, hpre2⟩ := h5
        have h10 : (quoteStr l ++ [',', ' ']).getLast? = some ' ' := by
          rw [List.getLast?_append]
          rfl
        have h9 : s1.getLast? = some ' ' := by
          rw [← hpre2, List.getLast?_append] at h10
          cases hc : s1.getLast? with
          | none =>
            rw [List.getLast?_eq_none_iff] at hc
            exact absurd hc h3
          | some y =>
            rw [hc] at h10
            simpa using h10
        have hmem2 : ' ' ∈ s1 := by
          have hg := List.getLast?_eq_getLast s1 h3
          rw [h9] at hg
          injection hg with h11
          exact h11 ▸ List.getLast_mem h3
        refine absurd ?_ (pat_no_delim hL ' ' (Or.inr (Or.inl rfl)))
        rw [h2]
        exact List.mem_append_left _ hmem2

theorem serializeInner_chars {ls : List (List Char)}
    (h : ∀ l ∈ ls, ∀ c ∈ l, SafeChar c) :
    ∀ c ∈ serializeInner ls, c = '"' ∨ c = ',' ∨ c = ' ' ∨ SafeChar c := by
  induction ls with
  | nil =>
    intro c hc
    cases hc
  | cons l rest ih =>
    cases rest with
    | nil =>
      intro c hc
      rw [show serializeInner [l] = quoteStr l from rfl, quoteStr,
        escStr_safe (h l (List.mem_cons_self _ _))] at hc
      rcases List.mem_cons.mp hc with h1 | h1
      · exact Or.inl h1
      · rcases List.mem_append.mp h1 with h2 | h2
        · exact Or.inr (Or.inr (Or.inr (h l (List.mem_cons_self _ _) c h2)))
        · rw [List.mem_singleton] at h2
          exact Or.inl h2
    | cons l2 rest' =>
      intro c hc
      rw [show serializeInner (l :: l2 :: rest') =
        quoteStr l ++ ',' :: ' ' :: serializeInner (l2 :: rest') from rfl,
        quoteStr, escStr_safe (h l (List.mem_cons_self _ _))] at hc
      rcases List.mem_append.mp hc with h1 | h1
      · rcases List.mem_cons.mp h1 with h2 | h2
        · exact Or.inl h2
        · rcases List.mem_append.mp h2 with h3 | h3
          · exact Or.inr (Or.inr (Or.inr
              (h l (List.mem_cons_self _ _) c h3)))
          · rw [List.mem_singleton] at h3
            exact Or.inl h3
      · rcases List.mem_cons.mp h1 with h2 | h2
        · exact Or.inr (Or.inl h2)
        · rcases List.mem_cons.mp h2 with h3 | h3
          · exact Or.inr (Or.inr (Or.inl h3))
          · exact ih (fun x hx => h x (List.mem_cons_of_mem _ hx)) c h3

theorem serializeLabels_fold {ls : List (List Char)}
    (h : ∀ l ∈ ls, ∀ c ∈ l, SafeChar c) :
    ∀ c ∈ serializeLabels ls, foldChar c = c := by
  intro c hc
  rw [serializeLabels] at hc
  rcases List.mem_cons.mp hc with h1 | h1
  · subst h1; decide
  · rcases List.mem_append.mp h1 with h2 | h2
    · rcases serializeInner_chars h c h2 with h3 | h3 | h3 | h3
      · subst h3; decide
      · subst h3; decide
      · subst h3; decide
      · exact (safeChar_facts c h3).1
    · rw [List.mem_singleton] at h2
      subst h2; decide

theorem infix_append_left {α : Type} {s b : List α} (a : List α)
    (h : s <:+: b) : s <:+: a ++ b := by
  obtain ⟨pre, post, heq⟩ := h
  exact ⟨a ++ pre, post, by rw [← heq]; simp⟩

theorem mem_quoted_contained {L : List Char} {ls : List (List Char)}
    (hls : ∀ l ∈ ls, ∀ c ∈ l, SafeChar c) (hmem : L ∈ ls) :
    ('"' :: L ++ ['"']) <:+: serializeLabels ls := by
  suffices hsuf : ('"' :: L ++ ['"']) <:+: serializeInner ls by
    obtain ⟨pre, post, heq⟩ := hsuf
    refine ⟨'[' :: pre, post ++ [']'], ?_⟩
    rw [serializeLabels, ← heq]
    simp
  induction ls with
  | nil => cases hmem
  | cons l rest ih =>
    rcases List.mem_cons.mp hmem with h1 | h1
    · subst h1
      cases rest with
      | nil =>
        rw [show serializeInner [L] = quoteStr L from rfl, quoteStr,
          escStr_safe (hls L (List.mem_cons_self _ _))]
      | cons l2 rest' =>
        rw [show serializeInner (L :: l2 :: rest') =
          quoteStr L ++ ',' :: ' ' :: serializeInner (l2 :: rest')
          from rfl, quoteStr,
          escStr_safe (hls L (List.mem_cons_self _ _))]
        exact mkInfixLeft (List.prefix_append _ _)
    · cases rest with
      | nil => cases h1
      | cons l2 rest' =>
        have htail := ih (fun x hx => hls x (List.mem_cons_of_mem _ hx)) h1
        rw [show serializeInner (l :: l2 :: rest') =
          (quoteStr l ++ [',', ' ']) ++ serializeInner (l2 :: rest')
          from by
            show quoteStr l ++ ',' :: ' ' :: serializeInner (l2 :: rest') = _
            simp]
        exact infix_append_left _ htail

theorem labelLike_iff {L : List Char} {labels : List (List Char)}
    (hL : ∀ c ∈ L, SafeChar c)
    (hlabels : ∀ l ∈ labels, ∀ c ∈ l, SafeChar c) :
    (labelLike L labels = true ↔ L ∈ labels) := by
  unfold labelLike
  rw [show ('%' :: '"' :: (L ++ '"' :: '%' :: [])) =
    '%' :: (('"' :: L ++ ['"']) ++ ['%']) from by simp]
  have hX : ∀ c ∈ ('"' :: L ++ ['"']), c ≠ '%' ∧ c ≠ '_' := by
    intro c hc
    rcases List.mem_cons.mp hc with h1 | h1
    · subst h1
      exact ⟨by decide, by decide⟩
    · rcases List.mem_append.mp h1 with h2 | h2
      · have hf := safeChar_facts c (hL c h2)
        exact ⟨hf.2.2.2.1, hf.2.2.2.2.1⟩
      · rw [List.mem_singleton] at h2
        subst h2
        exact ⟨by decide, by decide⟩
  have hXf : ∀ c ∈ ('"' :: L ++ ['"']), foldChar c = c := by
    intro c hc
    rcases List.mem_cons.mp hc with h1 | h1
    · subst h1; decide
    · rcases List.mem_append.mp h1 with h2 | h2
      · exact (safeChar_facts c (hL c h2)).1
      · rw [List.mem_singleton] at h2
        subst h2; decide
  rw [likeMatch_contains_iff hX hXf (serializeLabels_fold hlabels)]
  constructor
  · intro h
    have h0 : ('"' :: L ++ ['"']) <:+:
        ('[' :: (serializeInner labels ++ [']'])) := h
    have h1 : ('"' :: L ++ ['"']) <:+: serializeInner labels ++ [']'] :=
      infix_drop_head h0
        (pat_no_delim hL '[' (Or.inr (Or.inr (Or.inl rfl))))
    have h2 : ('"' :: L ++ ['"']) <:+: serializeInner labels :=
      infix_drop_last h1
        (pat_no_delim hL ']' (Or.inr (Or.inr (Or.inr rfl)))) (by simp)
    exact quoted_infix_mem hL hlabels h2
  · exact mem_quoted_contained hlabels

/-- C2 (amended): `list_tasks`'s label filter checks LIKE-containment of
the quoted label in the JSON-serialized label list; over nonempty labels
drawn from the wildcard-free, escape-free, case-unambiguous fragment
(lowercase letters, digits, hyphen) this coincides with exact any-match
set membership: a task is returned iff its label set contains at least
one element of the filter. -/
theorem list_label_filter (db : Db) (fl : List String) (t : Task)
    (hfl : fl ≠ []) (hsafe1 : ∀ l ∈ fl, SafeStr l)
    (hsafe2 : ∀ l ∈ t.labels, SafeStr l) :
    (t ∈ listTasks db { labels := fl } ↔
      t ∈ db.tasks ∧ ∃ l ∈ fl, l ∈ t.labels) := by
  have hlist : listTasks db { labels := fl } =
      List.insertionSort taskLE
        (db.tasks.filter (rowMatches { labels := fl })) := rfl
  rw [hlist, List.mem_insertionSort, List.mem_filter]
  have hemp : fl.isEmpty = false := by
    cases fl with
    | nil => exact absurd rfl hfl
    | cons a l => rfl
  have hrow : rowMatches { labels := fl } t = true ↔
      ∃ l ∈ fl, labelLike l.data (t.labels.map String.data) = true := by
    simp [rowMatches, hemp, List.any_eq_true]
  have hdata : ∀ l ∈ fl,
      (labelLike l.data (t.labels.map String.data) = true ↔
        l ∈ t.labels) := by
    intro l hl
    rw [labelLike_iff (hsafe1 l hl).2 ?hlab]
    case hlab =>
      intro ld hld c hc
      obtain ⟨s, hs, hsd⟩ := List.mem_map.mp hld
      exact (hsafe2 s hs).2 c (hsd ▸ hc)
    constructor
    · intro hm
      obtain ⟨s, hs, hsd⟩ := List.mem_map.mp hm
      exact (String.ext hsd) ▸ hs
    · intro hm
      exact List.mem_map_of_mem String.data hm
  rw [hrow]
  constructor
  · rintro ⟨hmem, l, hl, hlike⟩
    exact ⟨hmem, l, hl, (hdata l hl).mp hlike⟩
  · rintro ⟨hmem, l, hl, hin⟩
    exact ⟨hmem, l, hl, (hdata l hl).mpr hin⟩

/-- A task labelled `fabuloso`. -/
def tLbl : Task :=
  { pRoll with
    id := "lbl"
    labels := ["fabuloso"] }

/-- A one-task store for the label-filter counterexample. -/
def dbLbl : Db := { tasks := [tLbl], deps := [], hooks := [] }

/-- C2 (counterexample): the filter label `f%o` matches the task labelled
`fabuloso` — the `%` inside the filter element acts as a `LIKE` wildcard
over the serialized label list — although `f%o` is not an element of the
task's label set, refuting exact set-membership semantics. -/
theorem label_filter_substring_cex :
    tLbl ∈ listTasks dbLbl { labels := ["f%o"] } ∧
    ¬ ∃ l ∈ ["f%o"], l ∈ tLbl.labels := by
  constructor
  · decide
  · decide

/-- A task labelled `alpha`, within the safe fragment. -/
def tSafe : Task :=
  { pRoll with
    id := "safe"
    labels := ["alpha"] }

/-- A one-task store for the label-filter witness. -/
def dbSafe : Db := { tasks := [tSafe], deps := [], hooks := [] }

/-- C2 (witness): over safe labels, filtering by `["alpha", "beta"]`
returns exactly the task labelled `alpha`. -/
theorem list_label_filter_witness :
    tSafe ∈ listTasks dbSafe { labels := ["alpha", "beta"] } := by
  refine (list_label_filter dbSafe ["alpha", "beta"] tSafe (by decide)
    (by decide) (by decide)).mpr ⟨?_, "alpha", ?_, ?_⟩
  · decide
  · decide
  · decide

end Chisel
